import Mathlib

/-!
Shallow embedding of the query-partitioning / result-aggregation pipeline of the
ITPF-Legal-System repository (src/netlify/functions/searchFunction.js and
src/api/search.js), together with proofs about it.

JavaScript strings are modelled as Lean `String` (whose logical model is a list
of characters); the regex passes of `preprocessArabicText` are modelled as
run-based recursive functions over `List Char`, which is exactly the semantics
of a global regex replace of maximal runs.  JS `\s` and `trim` are modelled by
the ASCII whitespace class below (the inputs of interest contain no exotic
Unicode spaces).  JS objects with ordered string keys are modelled as ordered
association lists.
-/

namespace ITPF

/-- Character class of the regex `[a-zA-Z]` used in `preprocessArabicText`
(codepoints 97-122 and 65-90). -/
def isLatin (c : Char) : Bool :=
  (97 ≤ c.toNat && c.toNat ≤ 122) || (65 ≤ c.toNat && c.toNat ≤ 90)

/-- Whitespace class modelling the JS `\s` regex class and `String.prototype.trim`
(restricted to ASCII whitespace: space, tab, line feed, vertical tab, form feed,
carriage return). -/
def isWs (c : Char) : Bool :=
  c.toNat = 32 || c.toNat = 9 || c.toNat = 10 || c.toNat = 13 || c.toNat = 11 || c.toNat = 12

theorem isLatin_not_isWs {c : Char} (h : isLatin c = true) : isWs c = false := by
  simp only [isLatin, Bool.or_eq_true, Bool.and_eq_true, decide_eq_true_eq] at h
  simp only [isWs, Bool.or_eq_false_iff, decide_eq_false_iff_not]
  omega

/-- `text.replace(/([a-zA-Z]+)/g, ' $1 ')`: put a space on each side of every
maximal run of Latin letters (the regex engine matches maximal runs greedily,
left to right). -/
def spaceLatin (l : List Char) : List Char :=
  match l with
  | [] => []
  | c :: cs =>
    if isLatin c then
      ' ' :: (c :: cs).takeWhile isLatin ++ ' ' :: spaceLatin ((c :: cs).dropWhile isLatin)
    else
      c :: spaceLatin cs
termination_by l.length
decreasing_by
  · have h1 := (List.dropWhile_sublist (l := cs) isLatin).length_le
    simp only [List.dropWhile_cons]
    split
    · simp only [List.length_cons]; omega
    · simp_all
  · simp only [List.length_cons]; omega

/-- `text.replace(/\s+/g, ' ')`: collapse every maximal whitespace run to a
single space. -/
def collapseWs (l : List Char) : List Char :=
  match l with
  | [] => []
  | c :: cs =>
    if isWs c then
      ' ' :: collapseWs ((c :: cs).dropWhile isWs)
    else
      c :: collapseWs cs
termination_by l.length
decreasing_by
  · have h1 := (List.dropWhile_sublist (l := cs) isWs).length_le
    simp only [List.dropWhile_cons]
    split
    · simp only [List.length_cons]; omega
    · simp_all
  · simp only [List.length_cons]; omega

/-- `String.prototype.trim()` on the character-list model. -/
def trimChars (l : List Char) : List Char :=
  ((l.dropWhile isWs).reverse.dropWhile isWs).reverse

/-- Character-list body of `preprocessArabicText`. -/
def preprocessChars (l : List Char) : List Char :=
  trimChars (collapseWs (spaceLatin l))

/--
`preprocessArabicText` (identical in src/netlify/functions/searchFunction.js
lines 120-131 and src/api/search.js lines 109-120):

    if (!text) return '';
    const cleanText = text
        .replace(/([a-zA-Z]+)/g, ' $1 ')
        .replace(/\s+/g, ' ')
        .trim();
    return cleanText;
-/
def preprocessArabicText (text : String) : String :=
  if text = "" then ""
  else String.mk (preprocessChars text.data)

/-! ### JS string primitives used by the query splitter -/

/-- `String.prototype.split(sep)` for a non-empty string separator, on the
character-list model: split at the leftmost occurrences of `sep`, consuming
each occurrence, left to right.  `s` and `ss` are the head and tail of the
separator; `acc` holds the (reversed) characters of the part being built.  The
recursion is bounded by a structural fuel argument; every step consumes at
least one character, so fuel equal to the string length (what `jsSplit`
passes) never runs out. -/
def splitOnAux (s : Char) (ss : List Char) :
    Nat → List Char → List Char → List (List Char)
  | _, [], acc => [acc.reverse]
  | 0, l, acc => [acc.reverse ++ l]
  | fuel + 1, c :: cs, acc =>
    if (s :: ss).isPrefixOf (c :: cs) then
      acc.reverse :: splitOnAux s ss fuel ((c :: cs).drop (ss.length + 1)) []
    else
      splitOnAux s ss fuel cs (c :: acc)

/-- `s.split(sep)` (JS).  A JS split with an empty separator never occurs in the
source; it is mapped to the identity split. -/
def jsSplit (str sep : String) : List String :=
  match sep.data with
  | [] => [str]
  | s :: ss => (splitOnAux s ss str.data.length str.data []).map String.mk

/-- `s.includes(sub)` (JS): `sub` occurs as a substring of `s`.  Expressed via
`jsSplit` (for a non-empty pattern, the split has a single part exactly when
the pattern does not occur). -/
def jsIncludes (str sub : String) : Bool :=
  (jsSplit str sub).length != 1

/-- `s.trim()` (JS). -/
def jsTrim (s : String) : String :=
  String.mk (trimChars s.data)

/-- `s.length` (JS counts UTF-16 code units; for the BMP characters appearing in
this code base this is the number of characters). -/
def jsLength (s : String) : Nat :=
  s.data.length

/-- The ordered connector list of `splitQueryIntelligently`
(src/netlify/functions/searchFunction.js lines 606-613). -/
def arabicSplitters : List String :=
  ["و", "أو", "كما", "أيضاً", "بالإضافة", "علاوة على"]

/-- One pass of the Arabic connector loop body
(src/netlify/functions/searchFunction.js lines 618-629):

    const newQueries = [];
    subQueries.forEach(q => {
        if (q.includes(splitter)) {
            const parts = q.split(splitter).map(p => p.trim()).filter(p => p.length > 3);
            newQueries.push(...parts);
        } else {
            newQueries.push(q);
        }
    });
    subQueries = newQueries;
-/
def applySplitter (splitter : String) (subQueries : List String) : List String :=
  subQueries.foldl
    (fun newQueries q =>
      if jsIncludes q splitter then
        newQueries ++ (((jsSplit q splitter).map jsTrim).filter (fun p => jsLength p > 3))
      else
        newQueries ++ [q])
    []

/-- `splitQueryIntelligently` (src/netlify/functions/searchFunction.js
lines 594-645). -/
def splitQueryIntelligently (query : String) (language : String) : List String :=
  if language ≠ "ar" then
    if jsIncludes query " and " then (jsSplit query " and ").map jsTrim
    else [query]
  else
    let subQueries := arabicSplitters.foldl (fun sq sp => applySplitter sp sq) [query]
    let subQueries := if subQueries.length > 3 then subQueries.take 3 else subQueries
    let subQueries := subQueries.filter (fun q => jsLength (jsTrim q) > 2)
    if subQueries.length < 1 ∨ subQueries.length > 4 then [query] else subQueries

/-! ### Key rotator -/

/-- The language bias of `getNextApiKey`: Arabic-tagged requests start from the
second credential. -/
def keyBias (language : String) : Nat :=
  if language = "ar" then 1 else 0

/-- The selection index computed by `getNextApiKey` for a pool of the given
size. -/
def apiKeyIndex (poolSize : Nat) (language : String) (retryCount : Nat) : Nat :=
  (retryCount + keyBias language) % poolSize

/-- `getNextApiKey` (identical in src/netlify/functions/searchFunction.js
lines 394-410 and src/api/search.js lines 272-288):

    if (DEEPSEEK_API_KEYS.length === 0) throw new Error('No DeepSeek API keys configured');
    let index;
    if (language === 'ar') index = (retryCount + 1) % DEEPSEEK_API_KEYS.length;
    else index = retryCount % DEEPSEEK_API_KEYS.length;
    return DEEPSEEK_API_KEYS[index];

The key pool is passed explicitly (in the source it is a module constant built
from the environment). -/
def getNextApiKey (keys : List String) (language : String) (retryCount : Nat) :
    Except String String :=
  if keys.length = 0 then
    .error "No DeepSeek API keys configured"
  else
    let index := if language = "ar" then (retryCount + 1) % keys.length
                 else retryCount % keys.length
    .ok (keys.getD index "")

/-! ### Search results and the two aggregators -/

/-- One entry of the `results` array demanded from the upstream LLM:
`{ article_number, title, relevant_text, explanation, score }`.  Every field is
optional, as the upstream response may omit any of them. -/
structure SearchResult where
  article_number : Option String
  title : Option String
  relevant_text : Option String
  explanation : Option String
  score : Option Int
deriving DecidableEq, Repr

/-- `(r.score || 0)` as used by the sort comparators in both aggregators
(a missing score counts as 0; a present score of 0 is falsy in JS and also
yields 0). -/
def scoreVal (r : SearchResult) : Int :=
  r.score.getD 0

/-- Insert into a list sorted descending by `scoreVal`, before the first
element whose score is not larger.  Folding this over the list from the right
(`sortByScoreDesc`) is the unique stable descending sort, which is what
`Array.prototype.sort` with comparator `(b.score||0) - (a.score||0)` produces
(ECMA-262 requires `sort` to be stable). -/
def insertByScore (r : SearchResult) : List SearchResult → List SearchResult
  | [] => [r]
  | y :: ys => if scoreVal r ≥ scoreVal y then r :: y :: ys else y :: insertByScore r ys

/-- `results.sort((a, b) => (b.score || 0) - (a.score || 0))`: stable sort,
descending by score. -/
def sortByScoreDesc (l : List SearchResult) : List SearchResult :=
  l.foldr insertByScore []

/-- One element of the `Promise.allSettled(subPromises)` array consumed by
`aggregateQueryResults`: the settled status, the `success` flag of the
sub-query outcome object, and the parsed content of
`response.choices[0].message.content`.  `parsed = none` models a `JSON.parse`
failure or a parsed object without a `results` field (a present-but-empty
`results` array is `some []`, which the loop treats the same way). -/
structure SubResult where
  fulfilled : Bool
  success : Bool
  parsed : Option (List SearchResult)
deriving DecidableEq, Repr

/-- The flattened results of the successful outcomes, in outcome order
(sub-query 1's results before sub-query 2's, and so on). -/
def flattenSuccess (subResults : List SubResult) : List SearchResult :=
  (((subResults.filter (fun r => r.fulfilled && r.success)).map
    (fun r => r.parsed.getD [])).flatten)

/-- The dedup loop of `aggregateQueryResults`
(src/netlify/functions/searchFunction.js lines 675-693): the dedup key is the
raw `result.article_number` value (which is `undefined`, modelled `none`, when
the field is absent), and the first occurrence of each key is kept.

    const allResults = [];
    const seenArticles = new Set();
    ... content.results.forEach(result => {
        const articleKey = result.article_number;
        if (!seenArticles.has(articleKey)) {
            seenArticles.add(articleKey);
            allResults.push(result);
        }
    });
-/
def dedupByArticle (l : List SearchResult) (seen : List (Option String)) :
    List SearchResult :=
  match l with
  | [] => []
  | r :: rest =>
    if r.article_number ∈ seen then dedupByArticle rest seen
    else r :: dedupByArticle rest (r.article_number :: seen)

/-- The object serialized into `choices[0].message.content` by
`aggregateQueryResults` (the source wraps it in
`{choices: [{message: {content: JSON.stringify(...)}}]}`; the wrapper adds
nothing and is omitted).  Fields that appear in only one of the two branches
are `Option`s; `none` means the field is absent from the object. -/
structure AggregatedContent where
  results : List SearchResult
  total_results : Nat
  query_language : String
  error : Option String
  partitioned_search : Option Bool
  sub_queries_processed : Option Nat
deriving DecidableEq, Repr

/-- `aggregateQueryResults(subResults, originalQuery, language)`
(src/netlify/functions/searchFunction.js lines 654-717). -/
def aggregateQueryResults (subResults : List SubResult) (originalQuery : String)
    (language : String) : AggregatedContent :=
  let successfulResults := subResults.filter (fun r => r.fulfilled && r.success)
  if successfulResults.length = 0 then
    { results := []
      total_results := 0
      query_language := language
      error := some (if language = "ar" then "فشل في معالجة الاستعلام"
                     else "Failed to process query")
      partitioned_search := none
      sub_queries_processed := none }
  else
    let allResults := dedupByArticle (flattenSuccess subResults) []
    let topResults := (sortByScoreDesc allResults).take 3
    { results := topResults
      total_results := topResults.length
      query_language := language
      error := none
      partitioned_search := some true
      sub_queries_processed := some successfulResults.length }

/-- `result.article_number || 'result_' + uniqueResults.length` (JS `||`:
an absent field and an empty string are both falsy). -/
def jsOrKey (o : Option String) (d : String) : String :=
  match o with
  | some s => if s = "" then d else s
  | none => d

/-- The merge loop of `processPartitionedQuery` (src/api/search.js
lines 185-194): dedup key is `article_number` or the synthesized placeholder
`result_<uniqueResults.length>`, where `uniqueResults.length` is the number of
unique results accumulated so far.

    const uniqueResults = [];
    const seenArticles = new Set();
    allResults.forEach(result => {
        const articleId = result.article_number || `result_` + uniqueResults.length;
        if (!seenArticles.has(articleId)) {
            seenArticles.add(articleId);
            uniqueResults.push(result);
        }
    });
-/
def apiDedupAux (l : List SearchResult) (seen : List String)
    (uniq : List SearchResult) : List SearchResult :=
  match l with
  | [] => uniq
  | r :: rest =>
    let articleId := jsOrKey r.article_number ("result_" ++ toString uniq.length)
    if articleId ∈ seen then apiDedupAux rest seen uniq
    else apiDedupAux rest (articleId :: seen) (uniq ++ [r])

/-- The unique-result list built by `processPartitionedQuery` from the
flattened partition results. -/
def apiDedup (allResults : List SearchResult) : List SearchResult :=
  apiDedupAux allResults [] []

/-- The value of `processPartitionedQuery`'s aggregation step
(src/api/search.js lines 184-208): dedup, stable sort descending by score,
keep the top 3 (again eliding the `choices/message/content` JSON wrapper). -/
def apiAggregate (allResults : List SearchResult) : List SearchResult :=
  (sortByScoreDesc (apiDedup allResults)).take 3

/-! ### Documents, optimization, partitioning -/

/-- An article object as read by `optimizeDocumentsForArabic`
(src/netlify/functions/searchFunction.js lines 85-113): the three fields the
function copies, plus `extra` for any further fields the article object may
carry (the function reads no others).  `Time_Penalty_Tables` is a structured
table; it is modelled by an uninterpreted string. -/
structure JsArticle where
  title : Option String
  text : Option String
  Time_Penalty_Tables : Option String
  extra : List (String × String)
deriving DecidableEq, Repr

/-- A JS object with ordered string keys, as an ordered association list
(JS objects preserve insertion order for non-integer-like string keys, which is
what the corpus files use). -/
abbrev JsObj (α : Type) : Type :=
  List (String × α)

/-- A documents value: top-level sections (for the real corpus files:
`metadata`, `articles`, `appendices`, ...), each holding keyed entries. -/
abbrev Documents (α : Type) : Type :=
  JsObj (JsObj α)

/-- `article.text || ''` (JS `||` on an optional string). -/
def jsOrEmpty (o : Option String) : String :=
  match o with
  | some s => s
  | none => ""

/-- `article.Time_Penalty_Tables || undefined` (an absent field and an empty
string are falsy and give `undefined`). -/
def jsOrUndefined (o : Option String) : Option String :=
  match o with
  | some s => if s = "" then none else some s
  | none => none

/-- `optimizeDocumentsForArabic(documents, language)`
(src/netlify/functions/searchFunction.js lines 85-113):

    const optimized = {};
    const mainKey = Object.keys(documents)[0];
    if (!documents[mainKey]) return optimized;
    const articles = documents[mainKey];
    optimized[mainKey] = {};
    Object.keys(articles).forEach(articleKey => {
        const article = articles[articleKey];
        if (language === 'ar') {
            optimized[mainKey][articleKey] = {
                title: article.title,
                text: preprocessArabicText(article.text || ''),
                Time_Penalty_Tables: article.Time_Penalty_Tables || undefined
            };
        } else {
            optimized[mainKey][articleKey] = article;
        }
    });
    return optimized;

Only the first top-level key of `documents` is consulted; every other section
is absent from the returned object.  (`documents = {}` gives `mainKey =
undefined`, hence `documents[mainKey]` undefined and the empty object is
returned.) -/
def optimizeDocumentsForArabic (documents : Documents JsArticle)
    (language : String) : Documents JsArticle :=
  match documents with
  | [] => []
  | (mainKey, articles) :: _ =>
    [(mainKey,
      articles.map (fun ka =>
        (ka.1,
          if language = "ar" then
            { title := ka.2.title
              text := some (preprocessArabicText (jsOrEmpty ka.2.text))
              Time_Penalty_Tables := jsOrUndefined ka.2.Time_Penalty_Tables
              extra := [] }
          else ka.2)))]

/-- JS property read `articles[key]` on the association-list model of an
object: the entry for `key` (object keys are unique, so this is the unique
entry when present). -/
def assocLookup (key : String) (obj : JsObj α) : Option α :=
  match obj with
  | [] => none
  | kv :: rest => if kv.1 = key then some kv.2 else assocLookup key rest

/-- The chunking loop of `partitionDocuments` (src/api/search.js
lines 137-148):

    for (let i = 0; i < articleKeys.length; i += partitionSize) {
        const partitionKeys = articleKeys.slice(i, i + partitionSize);
        ...
    }

The loop is bounded by a structural fuel argument: each iteration advances `i`
by `size`, and the loop body is only reachable with `size > 0` (`partitionSize
= Math.ceil(n/3)` is 0 exactly when there are no article keys, and then the
loop does not run), so `keys.length` iterations always suffice and the fuel
never runs out on a reachable input. -/
def chunkKeysAux (keys : List String) (size : Nat) : Nat → Nat → List (List String)
  | 0, _ => []
  | fuel + 1, i =>
    if i < keys.length ∧ 0 < size then
      ((keys.drop i).take size) :: chunkKeysAux keys size fuel (i + size)
    else []

/-- `articleKeys` chunked into contiguous slices of `Math.ceil(n/3)` keys. -/
def chunkKeys (keys : List String) : List (List String) :=
  chunkKeysAux keys ((keys.length + 2) / 3) keys.length 0

/-- `partitionDocuments(documents)` (src/api/search.js lines 129-150):

    const mainKey = Object.keys(documents)[0];
    if (!documents[mainKey]) return [documents];
    const articles = documents[mainKey];
    const articleKeys = Object.keys(articles);
    const partitionSize = Math.ceil(articleKeys.length / 3);
    const partitions = [];
    for (let i = 0; i < articleKeys.length; i += partitionSize) {
        const partitionKeys = articleKeys.slice(i, i + partitionSize);
        const partition = { [mainKey]: {} };
        partitionKeys.forEach(key => { partition[mainKey][key] = articles[key]; });
        partitions.push(partition);
    }
    return partitions;
-/
def partitionDocuments (documents : Documents α) : List (Documents α) :=
  match documents with
  | [] => [documents]
  | (mainKey, articles) :: _ =>
    let articleKeys := articles.map Prod.fst
    (chunkKeys articleKeys).map (fun partitionKeys =>
      [(mainKey,
        partitionKeys.filterMap (fun key =>
          (assocLookup key articles).map (fun a => (key, a))))])

/-! ### The non-streaming retry path -/

/-- Outcome of `searchDeepSeekAPI` as far as the retry policy is concerned. -/
inductive ApiCallResult where
  | ok (attempt : Nat) (keyIndex : Nat)
  | fail (statusCode : Nat)
  | noKeys
deriving DecidableEq, Repr

/-- `searchDeepSeekAPI(payload, language, retryCount)`
(src/netlify/functions/searchFunction.js lines 736-835), modelled at the level
of HTTP status codes: `status n` is the status code the upstream returns to
attempt `n` (the payload is the same for every attempt, so it is not a
parameter).  The returned pair collects the key indices used, in order, and the
final outcome.

    apiKey = getNextApiKey(language, retryCount);   // rejects if pool empty
    ...
    if (res.statusCode >= 200 && res.statusCode < 300) resolve(parsedResponse);
    else if (retryCount < DEEPSEEK_API_KEYS.length - 1
             && (res.statusCode === 429 || res.statusCode >= 500))
        searchDeepSeekAPI(payload, language, retryCount + 1)...
    else reject(...);

Network errors and timeouts reject without retrying and are outside this
model. -/
def searchDeepSeekAPI (keys : List String) (status : Nat → Nat)
    (language : String) (retryCount : Nat) : List Nat × ApiCallResult :=
  if h : keys.length = 0 then
    ([], .noKeys)
  else
    let index := apiKeyIndex keys.length language retryCount
    let code := status retryCount
    if 200 ≤ code ∧ code < 300 then
      ([index], .ok retryCount index)
    else if hr : retryCount < keys.length - 1 ∧ (code = 429 ∨ 500 ≤ code) then
      (index :: (searchDeepSeekAPI keys status language (retryCount + 1)).1,
       (searchDeepSeekAPI keys status language (retryCount + 1)).2)
    else
      ([index], .fail code)
termination_by keys.length - retryCount
decreasing_by
  omega

/-! ## Claims -/

/-- Claim C7: assuming a non-empty credential pool, key selection is the
deterministic stateless function `index = (retryAttempt + bias) mod poolSize`
with `bias = 1` for Arabic-tagged requests and `bias = 0` for English;
`selectKey("ar", 0)` and `selectKey("en", 0)` select different indices whenever
the pool has at least 2 entries, and selection fails with a "no credentials
configured" error exactly when the pool is empty. -/
theorem claim_C7 :
    (∀ (keys : List String) (language : String) (retryCount : Nat),
      keys = [] →
      getNextApiKey keys language retryCount =
        Except.error "No DeepSeek API keys configured") ∧
    (∀ (keys : List String) (language : String) (retryCount : Nat),
      keys ≠ [] →
      getNextApiKey keys language retryCount =
        Except.ok (keys.getD (apiKeyIndex keys.length language retryCount) "")) ∧
    (∀ keys : List String, 2 ≤ keys.length →
      apiKeyIndex keys.length "ar" 0 ≠ apiKeyIndex keys.length "en" 0) := by
  refine ⟨?_, ?_, ?_⟩
  · intro keys language retryCount h
    subst h
    rfl
  · intro keys language retryCount h
    have hlen : keys.length ≠ 0 := by
      simpa using h
    unfold getNextApiKey
    rw [if_neg hlen]
    unfold apiKeyIndex keyBias
    by_cases har : language = "ar"
    · rw [if_pos har, if_pos har]
    · rw [if_neg har, if_neg har]
      simp
  · intro keys h
    unfold apiKeyIndex keyBias
    have h1 : (0 + 1) % keys.length = 1 := by
      rw [Nat.zero_add, Nat.mod_eq_of_lt (by omega)]
    have h2 : (0 + 0) % keys.length = 0 := by
      simp
    rw [if_pos rfl, if_neg (by decide), h1, h2]
    omega

/-- Witness for C7, at a pool of three credentials. -/
theorem claim_C7_witness :
    getNextApiKey ["k0", "k1", "k2"] "ar" 0 =
      Except.ok ((["k0", "k1", "k2"] : List String).getD
        (apiKeyIndex (["k0", "k1", "k2"] : List String).length "ar" 0) "") ∧
    apiKeyIndex (["k0", "k1", "k2"] : List String).length "ar" 0 ≠
      apiKeyIndex (["k0", "k1", "k2"] : List String).length "en" 0 :=
  ⟨claim_C7.2.1 ["k0", "k1", "k2"] "ar" 0 (by decide),
   claim_C7.2.2 ["k0", "k1", "k2"] (by decide)⟩

/-- Claim C8: on the single-call non-streaming path, an upstream HTTP 429 or
5xx response triggers a retry with the same payload and `retryAttempt+1` if
and only if `retryAttempt < poolSize − 1`, and otherwise the failure is
surfaced; with a pool of size 3, HTTP 429 on attempts 0 and 1 and success on
attempt 2, the call succeeds on the third attempt having used 3 distinct key
indices. -/
theorem claim_C8 :
    (∀ (keys : List String) (status : Nat → Nat) (language : String)
       (retryCount : Nat),
      keys ≠ [] →
      ¬(200 ≤ status retryCount ∧ status retryCount < 300) →
      ((retryCount < keys.length - 1 ∧
          (status retryCount = 429 ∨ 500 ≤ status retryCount)) →
        searchDeepSeekAPI keys status language retryCount =
          (apiKeyIndex keys.length language retryCount ::
            (searchDeepSeekAPI keys status language (retryCount + 1)).1,
           (searchDeepSeekAPI keys status language (retryCount + 1)).2)) ∧
      (¬(retryCount < keys.length - 1 ∧
          (status retryCount = 429 ∨ 500 ≤ status retryCount)) →
        searchDeepSeekAPI keys status language retryCount =
          ([apiKeyIndex keys.length language retryCount],
           ApiCallResult.fail (status retryCount)))) ∧
    (∀ (keys : List String) (status : Nat → Nat) (language : String),
      keys.length = 3 →
      status 0 = 429 → status 1 = 429 →
      200 ≤ status 2 → status 2 < 300 →
      searchDeepSeekAPI keys status language 0 =
        ([apiKeyIndex 3 language 0, apiKeyIndex 3 language 1,
          apiKeyIndex 3 language 2],
         ApiCallResult.ok 2 (apiKeyIndex 3 language 2)) ∧
      ([apiKeyIndex 3 language 0, apiKeyIndex 3 language 1,
        apiKeyIndex 3 language 2] : List Nat).Nodup) := by
  constructor
  · intro keys status language retryCount hk h2xx
    have hlen : ¬ keys.length = 0 := by simpa using hk
    constructor
    · intro hretry
      rw [searchDeepSeekAPI]
      rw [dif_neg hlen, if_neg h2xx, dif_pos hretry]
    · intro hstop
      rw [searchDeepSeekAPI]
      rw [dif_neg hlen, if_neg h2xx, dif_neg hstop]
  · intro keys status language hlen h0 h1 h2a h2b
    constructor
    · rw [searchDeepSeekAPI]
      rw [dif_neg (by omega), if_neg (by omega), dif_pos (by omega),
        show (0 : Nat) + 1 = 1 by rfl]
      rw [searchDeepSeekAPI]
      rw [dif_neg (by omega), if_neg (by omega), dif_pos (by omega),
        show (1 : Nat) + 1 = 2 by rfl]
      rw [searchDeepSeekAPI]
      rw [dif_neg (by omega), if_pos ⟨h2a, h2b⟩]
      rw [hlen]
    · unfold apiKeyIndex keyBias
      by_cases har : language = "ar"
      · rw [if_pos har]; decide
      · rw [if_neg har]; decide

/-- Witness for C8: three keys, 429 on the first two attempts, 200 on the
third. -/
theorem claim_C8_witness :
    searchDeepSeekAPI ["a", "b", "c"]
        (fun n => if n = 0 then 429 else if n = 1 then 429 else 200) "ar" 0 =
      ([apiKeyIndex 3 "ar" 0, apiKeyIndex 3 "ar" 1, apiKeyIndex 3 "ar" 2],
       ApiCallResult.ok 2 (apiKeyIndex 3 "ar" 2)) ∧
    ([apiKeyIndex 3 "ar" 0, apiKeyIndex 3 "ar" 1,
      apiKeyIndex 3 "ar" 2] : List Nat).Nodup :=
  claim_C8.2 ["a", "b", "c"]
    (fun n => if n = 0 then 429 else if n = 1 then 429 else 200) "ar"
    (by decide) (by decide) (by decide) (by decide) (by decide)

/-! ### Lemmas on document partitioning -/

theorem chunkKeysAux_flatten (keys : List String) (size : Nat) (hs : 0 < size) :
    ∀ fuel i, keys.length - i ≤ fuel →
      (chunkKeysAux keys size fuel i).flatten = keys.drop i := by
  intro fuel
  induction fuel with
  | zero =>
    intro i hi
    rw [chunkKeysAux, List.flatten_nil, Eq.comm, List.drop_eq_nil_iff]
    omega
  | succ fuel ih =>
    intro i hi
    rw [chunkKeysAux]
    by_cases hguard : i < keys.length ∧ 0 < size
    · rw [if_pos hguard, List.flatten_cons, ih (i + size) (by omega)]
      have hdd : keys.drop (i + size) = (keys.drop i).drop size := by
        rw [List.drop_drop]
      rw [hdd, List.take_append_drop]
    · rw [if_neg hguard, List.flatten_nil, Eq.comm, List.drop_eq_nil_iff]
      omega

theorem assocLookup_eq_of_mem {α : Type} {obj : JsObj α}
    (hnd : (obj.map Prod.fst).Nodup) {k : String} {a : α} (h : (k, a) ∈ obj) :
    assocLookup k obj = some a := by
  induction obj with
  | nil => cases h
  | cons kv rest ih =>
    rw [List.map_cons, List.nodup_cons] at hnd
    rcases List.mem_cons.mp h with heq | hmem
    · rw [assocLookup, if_pos (by rw [← heq])]
      rw [← heq]
    · rw [assocLookup, if_neg ?_]
      · exact ih hnd.2 hmem
      · intro hk
        exact hnd.1 (hk ▸ List.mem_map_of_mem Prod.fst hmem)

theorem rebuild_of_sublist {α : Type} {obj : JsObj α}
    (hnd : (obj.map Prod.fst).Nodup) :
    ∀ {sub : List (String × α)}, sub.Sublist obj →
      (sub.map Prod.fst).filterMap
        (fun key => (assocLookup key obj).map (fun a => (key, a))) = sub := by
  intro sub
  induction sub with
  | nil => intro hsub; rfl
  | cons kv rest ih =>
    intro hsub
    have h1 : assocLookup kv.1 obj = some kv.2 :=
      assocLookup_eq_of_mem hnd (hsub.subset (List.mem_cons_self kv rest))
    simp only [List.map_cons, List.filterMap_cons, h1, Option.map_some']
    rw [ih (List.sublist_of_cons_sublist hsub)]

theorem chunkRebuild {α : Type} (articles : JsObj α)
    (hnd : (articles.map Prod.fst).Nodup) (size : Nat) (hs : 0 < size) :
    ∀ fuel i, articles.length - i ≤ fuel →
      ((chunkKeysAux (articles.map Prod.fst) size fuel i).map
        (fun partitionKeys => partitionKeys.filterMap
          (fun key => (assocLookup key articles).map (fun a => (key, a))))).flatten
        = articles.drop i := by
  intro fuel
  induction fuel with
  | zero =>
    intro i hi
    rw [chunkKeysAux, List.map_nil, List.flatten_nil, Eq.comm,
      List.drop_eq_nil_iff]
    omega
  | succ fuel ih =>
    intro i hi
    rw [chunkKeysAux]
    by_cases hguard : i < (articles.map Prod.fst).length ∧ 0 < size
    · rw [if_pos hguard, List.map_cons, List.flatten_cons]
      have hslice : ((articles.map Prod.fst).drop i).take size =
          ((articles.drop i).take size).map Prod.fst := by
        rw [List.map_take, List.map_drop]
      have hsub : ((articles.drop i).take size).Sublist articles :=
        (List.take_sublist size (articles.drop i)).trans
          (List.drop_sublist i articles)
      rw [hslice, rebuild_of_sublist hnd hsub, ih (i + size) (by omega)]
      have hdd : articles.drop (i + size) = (articles.drop i).drop size := by
        rw [List.drop_drop]
      rw [hdd, List.take_append_drop]
    · rw [List.length_map] at hguard
      rw [if_neg (by rw [List.length_map]; exact hguard), List.map_nil,
        List.flatten_nil, Eq.comm, List.drop_eq_nil_iff]
      omega

/-- A 55-article corpus (keys `a0` ... `a54`), used for the concrete partition
counts. -/
def docs55 : Documents Nat :=
  [("articles", (List.range 55).map (fun n => ("a" ++ toString n, n)))]

/-- Claim C9 (counterexample): the code chunks into `Math.ceil(n/3)` articles
per partition, not `ceil(n/4)`; a 55-article corpus yields 3 partitions of
sizes [19, 19, 17], not 4 partitions of sizes [14, 14, 14, 13] as the claim
states. -/
theorem claim_C9_counterexample :
    (partitionDocuments docs55).length = 3 ∧
    (partitionDocuments docs55).map
      (fun part => ((part.map Prod.snd).flatten).length) = [19, 19, 17] ∧
    (partitionDocuments docs55).map
      (fun part => ((part.map Prod.snd).flatten).length) ≠ [14, 14, 14, 13] := by
  refine ⟨?_, ?_, ?_⟩ <;> decide

/-- Claim C9 (amended): document partitioning of a corpus with n articles into
chunks of size ceil(n/3) covers every article exactly once with no reordering,
each partition being a contiguous slice of the article list carrying the single
top-level key of the corpus; a 55-article corpus yields 3 partitions of sizes
[19, 19, 17]. -/
theorem claim_C9_amended :
    ∀ (α : Type) (mainKey : String) (articles : JsObj α)
      (rest : List (String × JsObj α)),
      (articles.map Prod.fst).Nodup →
      (((partitionDocuments ((mainKey, articles) :: rest)).map
          (fun part => (part.map Prod.snd).flatten)).flatten = articles ∧
        ∀ part ∈ partitionDocuments ((mainKey, articles) :: rest),
          part.map Prod.fst = [mainKey]) := by
  intro α mainKey articles rest hnd
  constructor
  · simp only [partitionDocuments]
    rw [List.map_map]
    by_cases hempty : articles = []
    · subst hempty
      rfl
    · have hpos : 0 < ((articles.map Prod.fst).length + 2) / 3 := by
        have hlen : 0 < articles.length := List.length_pos.mpr hempty
        rw [List.length_map]
        omega
      have hcomp : ((fun part : Documents α => (part.map Prod.snd).flatten) ∘
          (fun partitionKeys => [(mainKey, partitionKeys.filterMap
            (fun key => (assocLookup key articles).map (fun a => (key, a))))]))
          = (fun partitionKeys : List String => partitionKeys.filterMap
            (fun key => (assocLookup key articles).map (fun a => (key, a)))) := by
        funext partitionKeys
        simp
      rw [hcomp]
      have hall := chunkRebuild articles hnd
        (((articles.map Prod.fst).length + 2) / 3) hpos
        (articles.map Prod.fst).length 0 (by rw [List.length_map]; omega)
      rw [List.drop_zero] at hall
      exact hall
  · intro part hpart
    rcases List.mem_map.mp hpart with ⟨partitionKeys, hmem, hpart2⟩
    rw [← hpart2]
    rfl

/-- Witness for C9 (amended), at a two-article corpus. -/
theorem claim_C9_witness :
    (((partitionDocuments [("main", [("x", 1), ("y", 2)])]).map
        (fun part => (part.map Prod.snd).flatten)).flatten
      = ([("x", 1), ("y", 2)] : JsObj Nat) ∧
      ∀ part ∈ partitionDocuments [("main", ([("x", 1), ("y", 2)] : JsObj Nat))],
        part.map Prod.fst = ["main"]) :=
  claim_C9_amended Nat "main" [("x", 1), ("y", 2)] [] (by decide)

/-! ### Lemmas on the query splitter -/

theorem applySplitter_not_included (splitter q : String)
    (h : jsIncludes q splitter = false) :
    applySplitter splitter [q] = [q] := by
  unfold applySplitter
  rw [List.foldl_cons, List.foldl_nil, if_neg (by rw [h]; decide)]
  rfl

theorem foldl_applySplitter_single (sps : List String) (q : String)
    (h : ∀ sp ∈ sps, jsIncludes q sp = false) :
    sps.foldl (fun sq sp => applySplitter sp sq) [q] = [q] := by
  induction sps with
  | nil => rfl
  | cons sp rest ih =>
    rw [List.foldl_cons,
      applySplitter_not_included sp q (h sp (List.mem_cons_self sp rest))]
    exact ih (fun s hs => h s (List.mem_cons_of_mem sp hs))

/-- Claim C6 (counterexample): the splitter returns the original query as-is,
not the trimmed original; for the connector-free English query " hello " it
returns [" hello "], not ["hello"]. -/
theorem claim_C6_counterexample :
    splitQueryIntelligently " hello " "en" = [" hello "] ∧
    jsTrim " hello " = "hello" ∧
    splitQueryIntelligently " hello " "en" ≠ [jsTrim " hello "] := by
  refine ⟨?_, ?_, ?_⟩ <;> decide

/-- Claim C6 (amended): for every query containing no connector token of its
language (no " and " for English, none of the Arabic connector tokens for
Arabic), the splitter returns exactly one sub-query equal to the original
query as given (not trimmed). -/
theorem claim_C6_amended :
    (∀ query : String, jsIncludes query " and " = false →
      splitQueryIntelligently query "en" = [query]) ∧
    (∀ query : String, (∀ sp ∈ arabicSplitters, jsIncludes query sp = false) →
      splitQueryIntelligently query "ar" = [query]) := by
  constructor
  · intro query h
    unfold splitQueryIntelligently
    rw [if_pos (by decide), if_neg (by rw [h]; decide)]
  · intro query h
    unfold splitQueryIntelligently
    rw [if_neg (by simp)]
    dsimp only
    rw [foldl_applySplitter_single arabicSplitters query h]
    by_cases hkeep : jsLength (jsTrim query) > 2
    · simp [List.filter_cons, hkeep]
    · simp [List.filter_cons, hkeep]

/-- Witness for C6 (amended), at a connector-free English query and a
connector-free Arabic query. -/
theorem claim_C6_witness :
    splitQueryIntelligently "hello there" "en" = ["hello there"] ∧
    splitQueryIntelligently "سؤال" "ar" = ["سؤال"] :=
  ⟨claim_C6_amended.1 "hello there" (by decide),
   claim_C6_amended.2 "سؤال" (by decide)⟩

/-- Claim C5 (counterexample): the English path applies no length filter and
no cap; "a and b and c and d and e" yields 5 sub-queries (more than 4), the
first of which has length 1 (not greater than 2). -/
theorem claim_C5_counterexample :
    (splitQueryIntelligently "a and b and c and d and e" "en").length = 5 ∧
    "a" ∈ splitQueryIntelligently "a and b and c and d and e" "en" ∧
    jsLength "a" ≤ 2 := by
  refine ⟨?_, ?_, ?_⟩ <;> decide

/-- Claim C5 (amended): for Arabic queries the splitter returns between 1 and
3 sub-queries, and either every returned sub-query has trimmed length greater
than 2, or the result is exactly the single original query (the fallback, which
may be arbitrarily short); the English path splits on " and " with no length
filter and no cap, so no such bound applies to it. -/
theorem claim_C5_amended :
    ∀ query : String,
      1 ≤ (splitQueryIntelligently query "ar").length ∧
      (splitQueryIntelligently query "ar").length ≤ 3 ∧
      ((∀ q ∈ splitQueryIntelligently query "ar", 2 < jsLength (jsTrim q)) ∨
        splitQueryIntelligently query "ar" = [query]) := by
  intro query
  unfold splitQueryIntelligently
  rw [if_neg (by simp)]
  dsimp only
  generalize arabicSplitters.foldl (fun sq sp => applySplitter sp sq) [query] = A
  by_cases h3 : A.length > 3
  · rw [if_pos h3]
    generalize hC : List.filter (fun q => decide (jsLength (jsTrim q) > 2))
      (A.take 3) = C
    have hCle : C.length ≤ 3 := by
      rw [← hC]
      calc (List.filter (fun q => decide (jsLength (jsTrim q) > 2))
              (A.take 3)).length
          ≤ (A.take 3).length := List.length_filter_le _ _
        _ ≤ 3 := by rw [List.length_take]; omega
    by_cases hguard : C.length < 1 ∨ C.length > 4
    · rw [if_pos hguard]
      refine ⟨by simp, by simp, Or.inr rfl⟩
    · rw [if_neg hguard]
      refine ⟨by omega, hCle, Or.inl ?_⟩
      intro q hq
      have hmem := List.of_mem_filter (hC ▸ hq)
      simpa using hmem
  · rw [if_neg h3]
    generalize hC : List.filter (fun q => decide (jsLength (jsTrim q) > 2)) A = C
    have hCle : C.length ≤ 3 := by
      rw [← hC]
      calc (List.filter (fun q => decide (jsLength (jsTrim q) > 2)) A).length
          ≤ A.length := List.length_filter_le _ _
        _ ≤ 3 := by omega
    by_cases hguard : C.length < 1 ∨ C.length > 4
    · rw [if_pos hguard]
      refine ⟨by simp, by simp, Or.inr rfl⟩
    · rw [if_neg hguard]
      refine ⟨by omega, hCle, Or.inl ?_⟩
      intro q hq
      have hmem := List.of_mem_filter (hC ▸ hq)
      simpa using hmem

/-- Witness for C5 (amended), at a concrete Arabic query. -/
theorem claim_C5_witness :
    1 ≤ (splitQueryIntelligently "سؤال قانوني" "ar").length ∧
    (splitQueryIntelligently "سؤال قانوني" "ar").length ≤ 3 ∧
    ((∀ q ∈ splitQueryIntelligently "سؤال قانوني" "ar",
        2 < jsLength (jsTrim q)) ∨
      splitQueryIntelligently "سؤال قانوني" "ar" = ["سؤال قانوني"]) :=
  claim_C5_amended "سؤال قانوني"

/-! ### The aggregator on zero successes (Claim C3) -/

/-- Claim C3 (counterexample): on zero successful outcomes the aggregator's
response carries no `partitioned_search` field at all (the flag is only set,
to true, on the success path), contradicting the claimed
`partitioned_search=true`. -/
theorem claim_C3_counterexample :
    (aggregateQueryResults [⟨true, false, none⟩] "q" "ar").results = [] ∧
    (aggregateQueryResults [⟨true, false, none⟩] "q" "ar").error =
      some "فشل في معالجة الاستعلام" ∧
    (aggregateQueryResults [⟨true, false, none⟩] "q" "ar").partitioned_search
      = none ∧
    (aggregateQueryResults [⟨true, false, none⟩] "q" "ar").partitioned_search
      ≠ some true := by
  refine ⟨?_, ?_, ?_, ?_⟩ <;> decide

/-- Claim C3 (amended): for every sequence of outcomes in which no outcome
succeeded, the aggregator returns an empty result list carrying a failure
message in the requested language, `total_results = 0`, and no
`partitioned_search` field (the flag is absent on this path; only success
responses carry `partitioned_search = true`). -/
theorem claim_C3_amended :
    ∀ (subResults : List SubResult) (originalQuery language : String),
      (∀ r ∈ subResults, r.fulfilled = false ∨ r.success = false) →
      aggregateQueryResults subResults originalQuery language =
        { results := []
          total_results := 0
          query_language := language
          error := some (if language = "ar" then "فشل في معالجة الاستعلام"
                         else "Failed to process query")
          partitioned_search := none
          sub_queries_processed := none } := by
  intro subResults originalQuery language h
  have hfilter : subResults.filter (fun r => r.fulfilled && r.success) = [] := by
    rw [List.filter_eq_nil_iff]
    intro r hr
    rcases h r hr with h1 | h1 <;> simp [h1]
  unfold aggregateQueryResults
  dsimp only
  rw [hfilter]
  rfl

/-- Witness for C3 (amended), at a single failed outcome. -/
theorem claim_C3_witness :
    aggregateQueryResults [⟨false, true, none⟩] "q" "en" =
      { results := []
        total_results := 0
        query_language := "en"
        error := some (if "en" = "ar" then "فشل في معالجة الاستعلام"
                       else "Failed to process query")
        partitioned_search := none
        sub_queries_processed := none } :=
  claim_C3_amended [⟨false, true, none⟩] "q" "en" (by decide)

/-! ### Lemmas on the stable score sort -/

theorem insertByScore_perm (r : SearchResult) (l : List SearchResult) :
    (insertByScore r l).Perm (r :: l) := by
  induction l with
  | nil => exact List.Perm.refl _
  | cons y ys ih =>
    rw [insertByScore]
    split
    · exact List.Perm.refl _
    · exact (List.Perm.cons y ih).trans (List.Perm.swap r y ys)

theorem sortByScoreDesc_perm (l : List SearchResult) :
    (sortByScoreDesc l).Perm l := by
  induction l with
  | nil => exact List.Perm.refl _
  | cons x xs ih =>
    have hstep : sortByScoreDesc (x :: xs) = insertByScore x (sortByScoreDesc xs) :=
      rfl
    rw [hstep]
    exact (insertByScore_perm x _).trans (List.Perm.cons x ih)

theorem mem_insertByScore {x r : SearchResult} {l : List SearchResult} :
    x ∈ insertByScore r l ↔ x = r ∨ x ∈ l := by
  rw [(insertByScore_perm r l).mem_iff]
  exact List.mem_cons

theorem insertByScore_pairwise (r : SearchResult) (l : List SearchResult)
    (h : l.Pairwise (fun a b => scoreVal b ≤ scoreVal a)) :
    (insertByScore r l).Pairwise (fun a b => scoreVal b ≤ scoreVal a) := by
  induction l with
  | nil => simp [insertByScore]
  | cons y ys ih =>
    rw [List.pairwise_cons] at h
    rw [insertByScore]
    split
    · rename_i hge
      rw [List.pairwise_cons]
      refine ⟨?_, List.pairwise_cons.mpr h⟩
      intro b hb
      rcases List.mem_cons.mp hb with rfl | hb2
      · exact hge
      · exact le_trans (h.1 b hb2) hge
    · rename_i hlt
      rw [List.pairwise_cons]
      refine ⟨?_, ih h.2⟩
      intro b hb
      rcases mem_insertByScore.mp hb with rfl | hb2
      · omega
      · exact h.1 b hb2

theorem sortByScoreDesc_pairwise (l : List SearchResult) :
    (sortByScoreDesc l).Pairwise (fun a b => scoreVal b ≤ scoreVal a) := by
  induction l with
  | nil => exact List.Pairwise.nil
  | cons x xs ih =>
    have hstep : sortByScoreDesc (x :: xs) = insertByScore x (sortByScoreDesc xs) :=
      rfl
    rw [hstep]
    exact insertByScore_pairwise x _ ih

theorem filter_insertByScore (k : Int) (r : SearchResult) (l : List SearchResult) :
    (insertByScore r l).filter (fun x => decide (scoreVal x = k)) =
      if scoreVal r = k then
        r :: l.filter (fun x => decide (scoreVal x = k))
      else l.filter (fun x => decide (scoreVal x = k)) := by
  induction l with
  | nil =>
    by_cases hk : scoreVal r = k
    · rw [if_pos hk]
      simp [insertByScore, List.filter_cons, hk]
    · rw [if_neg hk]
      simp [insertByScore, List.filter_cons, hk]
  | cons y ys ih =>
    rw [insertByScore]
    by_cases hge : scoreVal r ≥ scoreVal y
    · rw [if_pos hge]
      by_cases hk : scoreVal r = k
      · rw [if_pos hk, List.filter_cons, if_pos (by simp [hk])]
      · rw [if_neg hk, List.filter_cons, if_neg (by simp [hk])]
    · rw [if_neg hge]
      rw [List.filter_cons]
      by_cases hyk : scoreVal y = k
      · have hrk : ¬ scoreVal r = k := by omega
        rw [if_pos (by simp [hyk]), ih, if_neg hrk, if_neg hrk,
          List.filter_cons, if_pos (by simp [hyk])]
      · rw [if_neg (by simp [hyk]), ih]
        by_cases hrk : scoreVal r = k
        · rw [if_pos hrk, if_pos hrk, List.filter_cons, if_neg (by simp [hyk])]
        · rw [if_neg hrk, if_neg hrk, List.filter_cons, if_neg (by simp [hyk])]

/-- Stability of the score sort: for every score value, the entries carrying
that value appear in the sorted list in exactly their pre-sort relative
order. -/
theorem sortByScoreDesc_stable (k : Int) (l : List SearchResult) :
    (sortByScoreDesc l).filter (fun x => decide (scoreVal x = k)) =
      l.filter (fun x => decide (scoreVal x = k)) := by
  induction l with
  | nil => rfl
  | cons x xs ih =>
    have hstep : sortByScoreDesc (x :: xs) = insertByScore x (sortByScoreDesc xs) :=
      rfl
    rw [hstep, filter_insertByScore]
    by_cases hk : scoreVal x = k
    · rw [if_pos hk, ih, List.filter_cons, if_pos (by simp [hk])]
    · rw [if_neg hk, ih, List.filter_cons, if_neg (by simp [hk])]

/-- The success branch of `aggregateQueryResults`, as an equation. -/
theorem aggregateQueryResults_results_of_success
    (subResults : List SubResult) (originalQuery language : String)
    (h : ∃ r ∈ subResults, r.fulfilled = true ∧ r.success = true) :
    (aggregateQueryResults subResults originalQuery language).results =
      (sortByScoreDesc (dedupByArticle (flattenSuccess subResults) [])).take 3 := by
  have hne : subResults.filter (fun r => r.fulfilled && r.success) ≠ [] := by
    obtain ⟨r, hr, h1, h2⟩ := h
    intro hnil
    have hmem : r ∈ subResults.filter (fun r => r.fulfilled && r.success) :=
      List.mem_filter.mpr ⟨hr, by simp [h1, h2]⟩
    rw [hnil] at hmem
    cases hmem
  unfold aggregateQueryResults
  dsimp only
  rw [if_neg (fun h0 => hne (List.length_eq_zero.mp h0))]

/-- Claim C2: for every sequence of outcomes with at least one success, the
aggregated response contains at most 3 entries, sorted descending by score
with a missing score treated as 0, equal to the first 3 entries of the stable
descending sort of the deduplicated flattened results (ties keep their
pre-sort relative order: see the filter conjunct); the same bound and order
hold for the partition aggregator of src/api/search.js.  The concrete
[10, 90, 50] to [90, 50, 10] instance is checked in the witness. -/
theorem claim_C2 :
    (∀ (subResults : List SubResult) (originalQuery language : String),
      (∃ r ∈ subResults, r.fulfilled = true ∧ r.success = true) →
      ((aggregateQueryResults subResults originalQuery language).results.length ≤ 3 ∧
       (aggregateQueryResults subResults originalQuery language).results.Pairwise
         (fun a b => scoreVal b ≤ scoreVal a) ∧
       (aggregateQueryResults subResults originalQuery language).results =
         (sortByScoreDesc (dedupByArticle (flattenSuccess subResults) [])).take 3)) ∧
    (∀ (k : Int) (l : List SearchResult),
      (sortByScoreDesc l).filter (fun x => decide (scoreVal x = k)) =
        l.filter (fun x => decide (scoreVal x = k))) ∧
    (∀ allResults : List SearchResult,
      (apiAggregate allResults).length ≤ 3 ∧
      (apiAggregate allResults).Pairwise (fun a b => scoreVal b ≤ scoreVal a)) := by
  refine ⟨?_, sortByScoreDesc_stable, ?_⟩
  · intro subResults originalQuery language h
    have hres := aggregateQueryResults_results_of_success subResults
      originalQuery language h
    rw [hres]
    refine ⟨?_, ?_, rfl⟩
    · rw [List.length_take]
      omega
    · exact (sortByScoreDesc_pairwise _).sublist (List.take_sublist _ _)
  · intro allResults
    constructor
    · rw [apiAggregate, List.length_take]
      omega
    · exact (sortByScoreDesc_pairwise _).sublist (List.take_sublist _ _)

/-- Input with scores [10, 90, 50] for the C2 witness. -/
def wScored : List SubResult :=
  [⟨true, true, some
    [⟨some "1", none, none, none, some 10⟩,
     ⟨some "2", none, none, none, some 90⟩,
     ⟨some "3", none, none, none, some 50⟩]⟩]

/-- Witness for C2: post-dedup scores [10, 90, 50] come out as [90, 50, 10],
and the theorem's bound applies to this input. -/
theorem claim_C2_witness :
    (aggregateQueryResults wScored "q" "en").results.map scoreVal
      = [90, 50, 10] ∧
    (aggregateQueryResults wScored "q" "en").results.length ≤ 3 :=
  ⟨by decide, (claim_C2.1 wScored "q" "en" (by decide)).1⟩

/-! ### Lemmas on deduplication (Claim C1) -/

theorem dedupByArticle_sublist :
    ∀ (l : List SearchResult) (seen : List (Option String)),
      (dedupByArticle l seen).Sublist l := by
  intro l
  induction l with
  | nil => intro seen; exact List.Sublist.refl _
  | cons x rest ih =>
    intro seen
    rw [dedupByArticle]
    split
    · exact (ih seen).trans (List.sublist_cons_self x rest)
    · exact (ih _).cons₂ x

theorem dedupByArticle_first :
    ∀ (l : List SearchResult) (seen : List (Option String)) (r : SearchResult),
      r ∈ dedupByArticle l seen →
      r.article_number ∉ seen ∧
      l.find? (fun x => x.article_number == r.article_number) = some r := by
  intro l
  induction l with
  | nil =>
    intro seen r hr
    simp [dedupByArticle] at hr
  | cons x rest ih =>
    intro seen r hr
    rw [dedupByArticle] at hr
    by_cases hseen : x.article_number ∈ seen
    · rw [if_pos hseen] at hr
      obtain ⟨hnot, hfind⟩ := ih seen r hr
      refine ⟨hnot, ?_⟩
      have hbx : ¬ (x.article_number == r.article_number) = true := by
        simp only [beq_iff_eq]
        intro he
        exact hnot (he ▸ hseen)
      rw [List.find?_cons_of_neg
        (p := fun y => y.article_number == r.article_number) (a := x) rest hbx]
      exact hfind
    · rw [if_neg hseen] at hr
      rcases List.mem_cons.mp hr with rfl | hr2
      · exact ⟨hseen, List.find?_cons_of_pos _ (by simp)⟩
      · obtain ⟨hnot, hfind⟩ := ih _ r hr2
        have hne : r.article_number ≠ x.article_number := by
          intro he
          exact hnot (by rw [he]; exact List.mem_cons_self _ _)
        refine ⟨fun hc => hnot (List.mem_cons_of_mem _ hc), ?_⟩
        have hbx : ¬ (x.article_number == r.article_number) = true := by
          simp only [beq_iff_eq]
          intro he
          exact hne he.symm
        rw [List.find?_cons_of_neg
          (p := fun y => y.article_number == r.article_number) (a := x) rest hbx]
        exact hfind

theorem dedupByArticle_keys_nodup :
    ∀ (l : List SearchResult) (seen : List (Option String)),
      ((dedupByArticle l seen).map (fun r => r.article_number)).Nodup ∧
      ∀ k ∈ (dedupByArticle l seen).map (fun r => r.article_number), k ∉ seen := by
  intro l
  induction l with
  | nil => intro seen; simp [dedupByArticle]
  | cons x rest ih =>
    intro seen
    rw [dedupByArticle]
    by_cases hseen : x.article_number ∈ seen
    · rw [if_pos hseen]
      exact ih seen
    · rw [if_neg hseen]
      obtain ⟨hnd, hdisj⟩ := ih (x.article_number :: seen)
      rw [List.map_cons]
      constructor
      · rw [List.nodup_cons]
        refine ⟨?_, hnd⟩
        intro hc
        exact hdisj _ hc (List.mem_cons_self _ _)
      · intro k hk
        rcases List.mem_cons.mp hk with rfl | hk2
        · exact hseen
        · exact fun hkseen => hdisj k hk2 (List.mem_cons_of_mem _ hkseen)

theorem apiDedupAux_first (s : String) (hs : s ≠ "") :
    ∀ (l : List SearchResult) (seen : List String) (uniq : List SearchResult)
      (r : SearchResult),
      r ∈ apiDedupAux l seen uniq → r ∉ uniq → r.article_number = some s →
      (s ∉ seen ∧
        l.find? (fun x => x.article_number == some s) = some r) := by
  intro l
  induction l with
  | nil =>
    intro seen uniq r hr hnu hra
    rw [apiDedupAux] at hr
    exact absurd hr hnu
  | cons x rest ih =>
    intro seen uniq r hr hnu hra
    rw [apiDedupAux] at hr
    by_cases hseenx :
        jsOrKey x.article_number ("result_" ++ toString uniq.length) ∈ seen
    · rw [if_pos hseenx] at hr
      obtain ⟨hs1, hfind⟩ := ih seen uniq r hr hnu hra
      refine ⟨hs1, ?_⟩
      have hbx : ¬ (x.article_number == some s) = true := by
        simp only [beq_iff_eq]
        intro he
        apply hs1
        rw [he] at hseenx
        simpa [jsOrKey, hs] using hseenx
      rw [List.find?_cons_of_neg
        (p := fun y => y.article_number == some s) (a := x) rest hbx]
      exact hfind
    · rw [if_neg hseenx] at hr
      by_cases hrx : r = x
      · subst hrx
        refine ⟨?_, List.find?_cons_of_pos _ (by simp [hra])⟩
        intro hc
        apply hseenx
        rw [hra]
        simpa [jsOrKey, hs] using hc
      · have hnu2 : r ∉ uniq ++ [x] := by
          intro hc
          rcases List.mem_append.mp hc with h1 | h1
          · exact hnu h1
          · exact hrx (List.mem_singleton.mp h1)
        obtain ⟨hs2, hfind⟩ := ih _ _ r hr hnu2 hra
        have hsseen : s ∉ seen := fun hc => hs2 (List.mem_cons_of_mem _ hc)
        refine ⟨hsseen, ?_⟩
        have hbx : ¬ (x.article_number == some s) = true := by
          simp only [beq_iff_eq]
          intro he
          apply hs2
          rw [he]
          simp [jsOrKey, hs]
        rw [List.find?_cons_of_neg
          (p := fun y => y.article_number == some s) (a := x) rest hbx]
        exact hfind

/-- Modelled from the claim's words (for refutation): deduplicate the
flattened list by `article_number`, synthesizing the placeholder
`result_<index>` from the position in the flattened list when
`article_number` is absent, keeping the first occurrence of each key. -/
def specDedupAux : List (Nat × SearchResult) → List String → List SearchResult
  | [], _ => []
  | (i, r) :: rest, seen =>
    (match r.article_number with
      | some s => if s ∈ seen then specDedupAux rest seen
                  else r :: specDedupAux rest (s :: seen)
      | none =>
        if ("result_" ++ toString i) ∈ seen then specDedupAux rest seen
        else r :: specDedupAux rest (("result_" ++ toString i) :: seen))

/-- The claim's dedup, applied to an indexed flattened list. -/
def specDedup (l : List SearchResult) : List SearchResult :=
  specDedupAux l.enum []

/-- Two results with absent `article_number`, for the C1 counterexample. -/
def cexA : SearchResult := ⟨none, some "A", none, none, some 5⟩

/-- Second absent-id result for the C1 counterexample. -/
def cexB : SearchResult := ⟨none, some "B", none, none, some 3⟩

/-- Claim C1 (counterexample): the netlify aggregator uses the raw
`article_number` value as the dedup key, so all entries lacking
`article_number` share the key `undefined` and collapse to the first one;
under the claim's placeholder scheme both would be kept. -/
theorem claim_C1_counterexample :
    (aggregateQueryResults [⟨true, true, some [cexA, cexB]⟩] "q" "en").results
      = [cexA] ∧
    (sortByScoreDesc (specDedup
      (flattenSuccess [⟨true, true, some [cexA, cexB]⟩]))).take 3
      = [cexA, cexB] ∧
    ([cexA] : List SearchResult) ≠ [cexA, cexB] := by
  refine ⟨?_, ?_, ?_⟩ <;> decide

/-- Claim C1 (amended): the netlify aggregator deduplicates the flattened
results by the raw `article_number` value (absent values share one key), so
the aggregated list has pairwise-distinct `article_number` values and each
entry is the first entry of the flattened list bearing its `article_number`
(first occurrence kept, later duplicates discarded, no merging of fields) —
in particular two outcomes both containing `article_number="105"` contribute
exactly one entry, the first-encountered one; the api/search.js partition
aggregator instead synthesizes the placeholder `result_<count of unique
results so far>` for an absent (or empty) `article_number`, and for every
present non-empty identifier it also keeps exactly the first occurrence. -/
theorem claim_C1_amended :
    (∀ (subResults : List SubResult) (originalQuery language : String),
      ((aggregateQueryResults subResults originalQuery language).results.map
        (fun r => r.article_number)).Nodup ∧
      (∀ r ∈ (aggregateQueryResults subResults originalQuery language).results,
        (flattenSuccess subResults).find?
          (fun x => x.article_number == r.article_number) = some r)) ∧
    (∀ (allResults : List SearchResult) (s : String), s ≠ "" →
      ∀ r ∈ apiDedup allResults, r.article_number = some s →
        allResults.find? (fun x => x.article_number == some s) = some r) := by
  constructor
  · intro subResults originalQuery language
    by_cases h : ∃ r ∈ subResults, r.fulfilled = true ∧ r.success = true
    · have hres := aggregateQueryResults_results_of_success subResults
        originalQuery language h
      rw [hres]
      constructor
      · have hperm : List.Perm
            ((sortByScoreDesc (dedupByArticle (flattenSuccess subResults)
              [])).map (fun r => r.article_number))
            ((dedupByArticle (flattenSuccess subResults) []).map
              (fun r => r.article_number)) :=
          (sortByScoreDesc_perm _).map _
        have hnd := (dedupByArticle_keys_nodup (flattenSuccess subResults) []).1
        have hnd2 := hperm.symm.nodup hnd
        have hsub : List.Sublist
            (((sortByScoreDesc (dedupByArticle (flattenSuccess subResults)
              [])).take 3).map (fun r => r.article_number))
            ((sortByScoreDesc (dedupByArticle (flattenSuccess subResults) [])).map
              (fun r => r.article_number)) := by
          rw [List.map_take]
          exact List.take_sublist _ _
        exact hnd2.sublist hsub
      · intro r hr
        have hr2 : r ∈ sortByScoreDesc (dedupByArticle (flattenSuccess subResults) []) :=
          List.mem_of_mem_take hr
        have hr3 : r ∈ dedupByArticle (flattenSuccess subResults) [] :=
          (sortByScoreDesc_perm _).mem_iff.mp hr2
        exact (dedupByArticle_first _ [] r hr3).2
    · have hempty : subResults.filter (fun r => r.fulfilled && r.success) = [] := by
        rw [List.filter_eq_nil_iff]
        intro r hr hc
        rw [Bool.and_eq_true] at hc
        exact h ⟨r, hr, hc.1, hc.2⟩
      have hres : (aggregateQueryResults subResults originalQuery language).results
          = [] := by
        unfold aggregateQueryResults
        dsimp only
        rw [hempty]
        rfl
      rw [hres]
      exact ⟨List.Pairwise.nil, fun r hr => absurd hr (List.not_mem_nil r)⟩
  · intro allResults s hs r hr hra
    exact (apiDedupAux_first s hs allResults [] [] r hr (List.not_mem_nil r) hra).2

/-- First result bearing article 105, for the C1 witness. -/
def w105 : SearchResult := ⟨some "105", some "first", none, none, some 7⟩

/-- Later duplicate of article 105, for the C1 witness. -/
def w105b : SearchResult := ⟨some "105", some "second", none, none, some 9⟩

/-- Two outcomes whose result lists both contain `article_number="105"`. -/
def wSubs105 : List SubResult :=
  [⟨true, true, some [w105]⟩, ⟨true, true, some [w105b]⟩]

/-- Witness for C1 (amended): with two outcomes both containing article 105,
every aggregated entry is the first flattened entry with its identifier, the
identifiers are pairwise distinct, and the api dedup also keeps the first
occurrence of 105. -/
theorem claim_C1_witness :
    (flattenSuccess wSubs105).find?
      (fun x => x.article_number == w105.article_number) = some w105 ∧
    ((aggregateQueryResults wSubs105 "q" "en").results.map
      (fun r => r.article_number)).Nodup ∧
    ([w105, w105b].find? (fun x => x.article_number == some "105") = some w105) :=
  ⟨(claim_C1_amended.1 wSubs105 "q" "en").2 w105 (by decide),
   (claim_C1_amended.1 wSubs105 "q" "en").1,
   claim_C1_amended.2 [w105, w105b] "105" (by decide) w105 (by decide) (by decide)⟩

/-! ### Document optimization (Claim C4) -/

/-- A two-section corpus for the C4 counterexample. -/
def cexDocs : Documents JsArticle :=
  [("articles", [("a1", ⟨some "T1", some "B1", none, []⟩)]),
   ("appendices", [("app9", ⟨some "T9", some "B9", none, []⟩)])]

/-- Claim C4 (counterexample): `optimizeDocumentsForArabic` keeps only the
first top-level section, dropping `appendices` entirely (for both languages),
and for Arabic it also drops every article field other than
title/text/Time_Penalty_Tables (the `note` field is lost and the text is
rewritten). -/
theorem claim_C4_counterexample :
    optimizeDocumentsForArabic cexDocs "en"
      = [("articles", [("a1", ⟨some "T1", some "B1", none, []⟩)])] ∧
    "appendices" ∈ cexDocs.map Prod.fst ∧
    "appendices" ∉ (optimizeDocumentsForArabic cexDocs "en").map Prod.fst ∧
    optimizeDocumentsForArabic
        [("articles", [("a1", ⟨some "T", none, none, [("note", "n")]⟩)])] "ar"
      = [("articles", [("a1", ⟨some "T", some "", none, []⟩)])] ∧
    (⟨some "T", none, none, [("note", "n")]⟩ : JsArticle).extra ≠
      (⟨some "T", some "", none, []⟩ : JsArticle).extra := by
  refine ⟨?_, ?_, ?_, ?_, ?_⟩ <;> decide

/-- Claim C4 (amended): the document-optimization step preserves at most the
first top-level section of the corpus (every later section is dropped);
within that section it preserves every article key in order, and for
non-Arabic languages it passes every article through unchanged; for Arabic it
rebuilds each article from title, preprocessed text and the penalty table
only. -/
theorem claim_C4_amended :
    (∀ (documents : Documents JsArticle) (language : String),
      (optimizeDocumentsForArabic documents language).length ≤ 1) ∧
    (∀ (language mainKey : String) (articles : JsObj JsArticle)
       (rest : List (String × JsObj JsArticle)),
      ((optimizeDocumentsForArabic ((mainKey, articles) :: rest) language).map
        Prod.fst = [mainKey]) ∧
      ((optimizeDocumentsForArabic ((mainKey, articles) :: rest) language).map
        (fun sec => sec.2.map Prod.fst) = [articles.map Prod.fst])) ∧
    (∀ (mainKey : String) (articles : JsObj JsArticle)
       (rest : List (String × JsObj JsArticle)) (language : String),
      language ≠ "ar" →
      optimizeDocumentsForArabic ((mainKey, articles) :: rest) language
        = [(mainKey, articles)]) := by
  refine ⟨?_, ?_, ?_⟩
  · intro documents language
    cases documents with
    | nil => simp [optimizeDocumentsForArabic]
    | cons sec rest => simp [optimizeDocumentsForArabic]
  · intro language mainKey articles rest
    constructor
    · rfl
    · simp only [optimizeDocumentsForArabic, List.map_cons, List.map_nil,
        List.map_map]
      rfl
  · intro mainKey articles rest language h
    simp only [optimizeDocumentsForArabic, if_neg h]
    simp

/-- Witness for C4 (amended): the English path passes the first section's
articles through unchanged. -/
theorem claim_C4_witness :
    optimizeDocumentsForArabic
        [("articles", [("a1", (⟨some "T", some "B", none, []⟩ : JsArticle))])]
        "en"
      = [("articles", [("a1", ⟨some "T", some "B", none, []⟩)])] :=
  claim_C4_amended.2.2 "articles"
    [("a1", ⟨some "T", some "B", none, []⟩)] [] "en" (by decide)

/-! ### The canonical form of preprocessed text (for Claim C10) -/

/-- Membership predicate of a token run: not whitespace, and of the given
Latin-ness. -/
def runPred (b : Bool) (d : Char) : Bool :=
  !isWs d && (isLatin d == b)

/-- The maximal-run tokens of a string: maximal runs of Latin letters and
maximal runs of other non-whitespace characters, in order; whitespace
separates tokens and is dropped. -/
def tokens (l : List Char) : List (List Char) :=
  match l with
  | [] => []
  | c :: cs =>
    if isWs c then tokens cs
    else
      ((c :: cs).takeWhile (runPred (isLatin c))) ::
        tokens ((c :: cs).dropWhile (runPred (isLatin c)))
termination_by l.length
decreasing_by
  · simp only [List.length_cons]; omega
  · have h1 := (List.dropWhile_sublist (l := cs) (runPred (isLatin c))).length_le
    simp only [List.dropWhile_cons]
    split
    · simp only [List.length_cons]; omega
    · simp_all [runPred]

/-- The canonical form: tokens joined by single spaces. -/
def canon (l : List Char) : List Char :=
  List.intercalate [' '] (tokens l)

/-- Whether the first character is whitespace or Latin (these force a leading
space in `collapseWs (spaceLatin l)`). -/
def startMark (l : List Char) : Bool :=
  match l with
  | [] => false
  | c :: _ => isWs c || isLatin c

/-- Whether the last character is whitespace or Latin. -/
def endMark (l : List Char) : Bool :=
  match l.getLast? with
  | none => false
  | some c => isWs c || isLatin c

/-- The value of `collapseWs (spaceLatin l)`, in closed form. -/
def midForm (l : List Char) : List Char :=
  if tokens l = [] then (if l = [] then [] else [' '])
  else
    (if startMark l then [' '] else []) ++ canon l ++
      (if endMark l then [' '] else [])

theorem isWs_not_isLatin {c : Char} (h : isWs c = true) : isLatin c = false := by
  simp only [isWs, Bool.or_eq_true, decide_eq_true_eq] at h
  simp only [isLatin, Bool.or_eq_false_iff, Bool.and_eq_false_iff,
    decide_eq_false_iff_not]
  omega

theorem spaceLatin_nil : spaceLatin [] = [] := by
  rw [spaceLatin]

theorem spaceLatin_cons_not_latin {c : Char} (cs : List Char)
    (h : isLatin c = false) : spaceLatin (c :: cs) = c :: spaceLatin cs := by
  rw [spaceLatin, if_neg (by simp [h])]

theorem spaceLatin_cons_latin {c : Char} (cs : List Char)
    (h : isLatin c = true) :
    spaceLatin (c :: cs) =
      ' ' :: (c :: cs).takeWhile isLatin ++
        ' ' :: spaceLatin ((c :: cs).dropWhile isLatin) := by
  rw [spaceLatin, if_pos h]

theorem collapseWs_nil : collapseWs [] = [] := by
  rw [collapseWs]

theorem collapseWs_cons_ws {c : Char} (cs : List Char) (h : isWs c = true) :
    collapseWs (c :: cs) = ' ' :: collapseWs ((c :: cs).dropWhile isWs) := by
  rw [collapseWs, if_pos h]

theorem collapseWs_cons_not_ws {c : Char} (cs : List Char) (h : isWs c = false) :
    collapseWs (c :: cs) = c :: collapseWs cs := by
  rw [collapseWs, if_neg (by simp [h])]

theorem spaceLatin_append_not_latin {xs : List Char} (r : List Char)
    (h : ∀ c ∈ xs, isLatin c = false) :
    spaceLatin (xs ++ r) = xs ++ spaceLatin r := by
  induction xs with
  | nil => rfl
  | cons x xs2 ih =>
    rw [List.cons_append,
      spaceLatin_cons_not_latin _ (h x (List.mem_cons_self x xs2)),
      ih (fun c hc => h c (List.mem_cons_of_mem x hc))]
    rfl

theorem collapseWs_append_not_ws {xs : List Char} (r : List Char)
    (h : ∀ c ∈ xs, isWs c = false) :
    collapseWs (xs ++ r) = xs ++ collapseWs r := by
  induction xs with
  | nil => rfl
  | cons x xs2 ih =>
    rw [List.cons_append,
      collapseWs_cons_not_ws _ (h x (List.mem_cons_self x xs2)),
      ih (fun c hc => h c (List.mem_cons_of_mem x hc))]
    rfl

theorem tokens_nil : tokens [] = [] := by
  rw [tokens]

theorem tokens_cons_ws {c : Char} (cs : List Char) (h : isWs c = true) :
    tokens (c :: cs) = tokens cs := by
  rw [tokens, if_pos h]

theorem tokens_cons_not_ws {c : Char} (cs : List Char) (h : isWs c = false) :
    tokens (c :: cs) =
      ((c :: cs).takeWhile (runPred (isLatin c))) ::
        tokens ((c :: cs).dropWhile (runPred (isLatin c))) := by
  rw [tokens, if_neg (by simp [h])]

theorem runPred_true_eq : runPred true = isLatin := by
  funext d
  by_cases h : isLatin d = true
  · simp [runPred, h, isLatin_not_isWs h]
  · simp only [Bool.not_eq_true] at h
    simp [runPred, h]

theorem tokens_eq_nil_iff (l : List Char) :
    tokens l = [] ↔ ∀ c ∈ l, isWs c = true := by
  induction l with
  | nil => simp [tokens_nil]
  | cons c cs ih =>
    by_cases h : isWs c = true
    · rw [tokens_cons_ws cs h]
      simp [ih, h]
    · rw [tokens_cons_not_ws cs (by simpa using h)]
      simp only [List.cons_ne_nil, false_iff]
      intro hall
      exact h (hall c (List.mem_cons_self c cs))

theorem endMark_append {xs r : List Char} (h : r ≠ []) :
    endMark (xs ++ r) = endMark r := by
  unfold endMark
  rw [List.getLast?_append]
  cases hg : r.getLast? with
  | none => exact absurd (List.getLast?_eq_none_iff.mp hg) h
  | some z => rfl

theorem endMark_cons {c : Char} {cs : List Char} (h : cs ≠ []) :
    endMark (c :: cs) = endMark cs := by
  have h2 : endMark ([c] ++ cs) = endMark cs := endMark_append h
  simpa using h2

theorem dropWhile_head_not {p : Char → Bool} :
    ∀ (l : List Char) {d : Char} {rest : List Char},
      l.dropWhile p = d :: rest → p d = false := by
  intro l
  induction l with
  | nil => intro d rest h; simp [List.dropWhile] at h
  | cons x xs ih =>
    intro d rest h
    rw [List.dropWhile_cons] at h
    split at h
    · exact ih h
    · cases h
      simp_all

theorem getLast?_cons_of_ne {x : Char} {l : List Char} (h : l ≠ []) :
    (x :: l).getLast? = l.getLast? := by
  have hx : x :: l = [x] ++ l := rfl
  rw [hx, List.getLast?_append]
  cases hg : l.getLast? with
  | none => exact absurd (List.getLast?_eq_none_iff.mp hg) h
  | some z => rfl

theorem intercalate_single (t : List Char) : List.intercalate [' '] [t] = t := by
  simp [List.intercalate]

theorem intercalate_cons_of_ne (t : List Char) {ts : List (List Char)}
    (h : ts ≠ []) :
    List.intercalate [' '] (t :: ts) = t ++ ' ' :: List.intercalate [' '] ts := by
  cases ts with
  | nil => exact absurd rfl h
  | cons u us => simp [List.intercalate]

theorem intercalate_head_extend (x : Char) (t : List Char)
    (ts : List (List Char)) :
    List.intercalate [' '] ((x :: t) :: ts) =
      x :: List.intercalate [' '] (t :: ts) := by
  cases ts with
  | nil => rw [intercalate_single, intercalate_single]
  | cons u us =>
    rw [intercalate_cons_of_ne (x :: t) (by simp),
      intercalate_cons_of_ne t (by simp)]
    rfl

theorem takeWhile_all {p : Char → Bool} :
    ∀ l : List Char, (∀ x ∈ l, p x = true) → l.takeWhile p = l := by
  intro l
  induction l with
  | nil => intro _; rfl
  | cons x xs ih =>
    intro h
    rw [List.takeWhile_cons_of_pos (h x (List.mem_cons_self x xs)),
      ih (fun y hy => h y (List.mem_cons_of_mem x hy))]

theorem dropWhile_all {p : Char → Bool} :
    ∀ l : List Char, (∀ x ∈ l, p x = true) → l.dropWhile p = [] := by
  intro l
  induction l with
  | nil => intro _; rfl
  | cons x xs ih =>
    intro h
    rw [List.dropWhile_cons_of_pos (h x (List.mem_cons_self x xs)),
      ih (fun y hy => h y (List.mem_cons_of_mem x hy))]

theorem tokens_chunks :
    ∀ (n : Nat) (l : List Char), l.length ≤ n → ∀ t ∈ tokens l,
      t ≠ [] ∧ ∃ b : Bool, ∀ c ∈ t, isWs c = false ∧ isLatin c = b := by
  intro n
  induction n with
  | zero =>
    intro l hl t ht
    have hnil : l = [] := List.eq_nil_of_length_eq_zero (Nat.le_zero.mp hl)
    subst hnil
    rw [tokens_nil] at ht
    cases ht
  | succ n ih =>
    intro l hl t ht
    cases l with
    | nil =>
      rw [tokens_nil] at ht
      cases ht
    | cons c cs =>
      simp only [List.length_cons] at hl
      by_cases hws : isWs c = true
      · rw [tokens_cons_ws cs hws] at ht
        exact ih cs (by omega) t ht
      · have hws2 : isWs c = false := by simpa using hws
        rw [tokens_cons_not_ws cs hws2] at ht
        have hpc : runPred (isLatin c) c = true := by
          simp [runPred, hws2]
        rcases List.mem_cons.mp ht with rfl | ht2
        · constructor
          · rw [List.takeWhile_cons_of_pos hpc]
            simp
          · refine ⟨isLatin c, ?_⟩
            intro x hx
            have hpx := List.mem_takeWhile_imp hx
            simp only [runPred, Bool.and_eq_true, Bool.not_eq_true',
              beq_iff_eq] at hpx
            exact hpx
        · have hdrop : (c :: cs).dropWhile (runPred (isLatin c)) =
              cs.dropWhile (runPred (isLatin c)) :=
            List.dropWhile_cons_of_pos hpc
          rw [hdrop] at ht2
          have hlen := (List.dropWhile_sublist
            (l := cs) (runPred (isLatin c))).length_le
          exact ih _ (by omega) t ht2

theorem intercalate_facts :
    ∀ ts : List (List Char),
      (∀ t ∈ ts, t ≠ []) →
      (∀ t ∈ ts, ∀ c ∈ t, isWs c = false) →
      ts ≠ [] →
      (List.intercalate [' '] ts ≠ [] ∧
        (∀ c, (List.intercalate [' '] ts).head? = some c → isWs c = false) ∧
        (∀ c, (List.intercalate [' '] ts).getLast? = some c → isWs c = false)) := by
  intro ts
  induction ts with
  | nil =>
    intro _ _ h
    exact absurd rfl h
  | cons t ts ih =>
    intro hne hws _
    have htne : t ≠ [] := hne t (List.mem_cons_self t ts)
    cases ts with
    | nil =>
      rw [intercalate_single]
      refine ⟨htne, ?_, ?_⟩
      · intro c hc
        cases t with
        | nil => exact absurd rfl htne
        | cons x xs =>
          rw [List.head?_cons] at hc
          cases hc
          exact hws _ (List.mem_cons_self _ _) _ (List.mem_cons_self _ _)
      · intro c hc
        exact hws t (List.mem_cons_self t _) c (List.mem_of_mem_getLast? hc)
    | cons u us =>
      obtain ⟨hI, hIhead, hIlast⟩ := ih
        (fun s hs => hne s (List.mem_cons_of_mem t hs))
        (fun s hs => hws s (List.mem_cons_of_mem t hs))
        (by simp)
      rw [intercalate_cons_of_ne _ (by simp)]
      refine ⟨by simp [htne], ?_, ?_⟩
      · intro c hc
        cases t with
        | nil => exact absurd rfl htne
        | cons x xs =>
          rw [List.cons_append, List.head?_cons] at hc
          cases hc
          exact hws _ (List.mem_cons_self _ _) _ (List.mem_cons_self _ _)
      · intro c hc
        rw [List.getLast?_append, getLast?_cons_of_ne hI] at hc
        cases hg : (List.intercalate [' '] (u :: us)).getLast? with
        | none => exact absurd (List.getLast?_eq_none_iff.mp hg) hI
        | some z =>
          rw [hg] at hc
          simp only [Option.or] at hc
          cases hc
          exact hIlast c hg

theorem tokens_intercalate :
    ∀ ts : List (List Char),
      (∀ t ∈ ts, t ≠ [] ∧ ∃ b : Bool, ∀ c ∈ t, isWs c = false ∧ isLatin c = b) →
      tokens (List.intercalate [' '] ts) = ts := by
  intro ts
  induction ts with
  | nil =>
    intro _
    exact tokens_nil
  | cons t ts ih =>
    intro h
    obtain ⟨htne, b, hb⟩ := h t (List.mem_cons_self t ts)
    cases t with
    | nil => exact absurd rfl htne
    | cons c t2 =>
      have hcb : isLatin c = b := (hb c (List.mem_cons_self c t2)).2
      have hcw : isWs c = false := (hb c (List.mem_cons_self c t2)).1
      have hall : ∀ x ∈ c :: t2, runPred (isLatin c) x = true := by
        intro x hx
        have := hb x hx
        simp [runPred, this.1, this.2, hcb]
      cases ts with
      | nil =>
        rw [intercalate_single, tokens_cons_not_ws t2 hcw,
          takeWhile_all _ hall, dropWhile_all _ hall, tokens_nil]
      | cons u us =>
        rw [intercalate_cons_of_ne _ (by simp)]
        have hx : (c :: t2) ++ ' ' :: List.intercalate [' '] (u :: us) =
            c :: (t2 ++ ' ' :: List.intercalate [' '] (u :: us)) := rfl
        rw [hx, tokens_cons_not_ws _ hcw]
        have hall2 : ∀ x ∈ t2, runPred (isLatin c) x = true := by
          intro x hx2
          exact hall x (List.mem_cons_of_mem c hx2)
        have hsp : runPred (isLatin c) ' ' = false := by
          simp [runPred, isWs]
        rw [show c :: (t2 ++ ' ' :: List.intercalate [' '] (u :: us)) =
            (c :: t2) ++ ' ' :: List.intercalate [' '] (u :: us) from rfl]
        rw [List.takeWhile_append_of_pos hall,
          List.dropWhile_append_of_pos hall,
          List.takeWhile_cons_of_neg (by simp [hsp]),
          List.dropWhile_cons_of_neg (by simp [hsp]),
          List.append_nil]
        rw [tokens_cons_ws _ (by simp [isWs])]
        rw [ih (fun s hs => h s (List.mem_cons_of_mem (c :: t2) hs))]

theorem tokens_latin_run (run rr : List Char) (hne : run ≠ [])
    (hall : ∀ x ∈ run, isLatin x = true)
    (hrr : ∀ d rr2, rr = d :: rr2 → isLatin d = false) :
    tokens (run ++ rr) = run :: tokens rr := by
  cases run with
  | nil => exact absurd rfl hne
  | cons c r2 =>
    have hclat : isLatin c = true := hall c (List.mem_cons_self c r2)
    have hcw : isWs c = false := isLatin_not_isWs hclat
    rw [List.cons_append, tokens_cons_not_ws _ hcw, hclat, runPred_true_eq,
      ← List.cons_append,
      List.takeWhile_append_of_pos hall, List.dropWhile_append_of_pos hall]
    cases rr with
    | nil =>
      rw [List.takeWhile_nil, List.dropWhile_nil, List.append_nil]
    | cons d rr2 =>
      have hd := hrr d rr2 rfl
      rw [List.takeWhile_cons_of_neg (by simp [hd]),
        List.dropWhile_cons_of_neg (by simp [hd]), List.append_nil]

theorem endMark_of_all_ws {l : List Char} (hne : l ≠ [])
    (h : ∀ c ∈ l, isWs c = true) : endMark l = true := by
  unfold endMark
  cases hg : l.getLast? with
  | none => exact absurd (List.getLast?_eq_none_iff.mp hg) hne
  | some z => simp [h z (List.mem_of_mem_getLast? hg)]

theorem endMark_of_all_latin {l : List Char} (hne : l ≠ [])
    (h : ∀ c ∈ l, isLatin c = true) : endMark l = true := by
  unfold endMark
  cases hg : l.getLast? with
  | none => exact absurd (List.getLast?_eq_none_iff.mp hg) hne
  | some z => simp [h z (List.mem_of_mem_getLast? hg)]

theorem midForm_nil : midForm [] = [] := by
  rw [midForm, if_pos tokens_nil, if_pos rfl]

theorem midForm_allws {l : List Char} (hne : l ≠ []) (h : tokens l = []) :
    midForm l = [' '] := by
  rw [midForm, if_pos h, if_neg hne]

theorem midForm_pos {l : List Char} (h : tokens l ≠ []) :
    midForm l = (if startMark l then [' '] else []) ++ canon l ++
      (if endMark l then [' '] else []) := by
  rw [midForm, if_neg h]

theorem midForm_tail {c : Char} {l : List Char} (hws : isWs c = true)
    (hl : startMark l = true) (hne : l ≠ []) :
    midForm (c :: l) = midForm l := by
  have ht := tokens_cons_ws l hws
  have hs : startMark (c :: l) = true := by simp [startMark, hws]
  have hend : endMark (c :: l) = endMark l := endMark_cons hne
  by_cases htl : tokens l = []
  · rw [midForm_allws (by simp) (by rw [ht]; exact htl), midForm_allws hne htl]
  · rw [midForm_pos (l := c :: l) (by rw [ht]; exact htl), midForm_pos htl]
    rw [hs, hl, hend, canon, canon, ht]

theorem midForm_ws_other {c d : Char} (cs2 : List Char) (hws : isWs c = true)
    (hdw : isWs d = false) (hdl : isLatin d = false) :
    midForm (c :: d :: cs2) = ' ' :: midForm (d :: cs2) := by
  have ht := tokens_cons_ws (d :: cs2) hws
  have htne : tokens (d :: cs2) ≠ [] := by
    rw [tokens_cons_not_ws cs2 hdw]
    simp
  have hend : endMark (c :: d :: cs2) = endMark (d :: cs2) :=
    endMark_cons (by simp)
  have hs1 : startMark (c :: d :: cs2) = true := by simp [startMark, hws]
  have hs2 : startMark (d :: cs2) = false := by simp [startMark, hdw, hdl]
  rw [midForm_pos (l := c :: d :: cs2) (by rw [ht]; exact htne),
    midForm_pos htne]
  rw [hs1, hs2, hend, canon, canon, ht]
  simp

theorem midForm_latin_all {l : List Char} (hne : l ≠ [])
    (hall : ∀ x ∈ l, isLatin x = true) :
    midForm l = ' ' :: l ++ [' '] := by
  have ht : tokens l = [l] := by
    have hx := tokens_latin_run l [] hne hall (by intro d rr2 h; cases h)
    rw [List.append_nil] at hx
    rw [hx, tokens_nil]
  have hs : startMark l = true := by
    cases l with
    | nil => exact absurd rfl hne
    | cons c cs => simp [startMark, hall c (List.mem_cons_self c cs)]
  rw [midForm_pos (by rw [ht]; simp), hs, endMark_of_all_latin hne hall,
    canon, ht, intercalate_single]
  simp

theorem midForm_latin_append_ws {run : List Char} {d : Char} {rr2 : List Char}
    (hne : run ≠ []) (hall : ∀ x ∈ run, isLatin x = true)
    (hdw : isWs d = true) :
    midForm (run ++ d :: rr2) = ' ' :: run ++ midForm (d :: rr2) := by
  have ht : tokens (run ++ d :: rr2) = run :: tokens (d :: rr2) :=
    tokens_latin_run run (d :: rr2) hne hall
      (by intro e ee h; cases h; exact isWs_not_isLatin hdw)
  have hs1 : startMark (run ++ d :: rr2) = true := by
    cases run with
    | nil => exact absurd rfl hne
    | cons c r2 =>
      simp [startMark, hall c (List.mem_cons_self c r2)]
  have hend : endMark (run ++ d :: rr2) = endMark (d :: rr2) :=
    endMark_append (by simp)
  by_cases htd : tokens (d :: rr2) = []
  · have hallws : ∀ x ∈ d :: rr2, isWs x = true := (tokens_eq_nil_iff _).mp htd
    rw [midForm_pos (by rw [ht]; simp), hs1, hend,
      endMark_of_all_ws (by simp) hallws, canon, ht, htd, intercalate_single,
      midForm_allws (by simp) htd]
    simp
  · have hs2 : startMark (d :: rr2) = true := by simp [startMark, hdw]
    rw [midForm_pos (l := run ++ d :: rr2) (by rw [ht]; simp),
      midForm_pos htd, hs1, hs2, hend, canon, canon, ht,
      intercalate_cons_of_ne run htd]
    simp

theorem midForm_latin_append_other {run : List Char} {d : Char}
    {rr2 : List Char} (hne : run ≠ [])
    (hall : ∀ x ∈ run, isLatin x = true)
    (hdw : isWs d = false) (hdl : isLatin d = false) :
    midForm (run ++ d :: rr2) = ' ' :: run ++ ' ' :: midForm (d :: rr2) := by
  have ht : tokens (run ++ d :: rr2) = run :: tokens (d :: rr2) :=
    tokens_latin_run run (d :: rr2) hne hall
      (by intro e ee h; cases h; exact hdl)
  have htd : tokens (d :: rr2) ≠ [] := by
    rw [tokens_cons_not_ws rr2 hdw]
    simp
  have hs1 : startMark (run ++ d :: rr2) = true := by
    cases run with
    | nil => exact absurd rfl hne
    | cons c r2 =>
      simp [startMark, hall c (List.mem_cons_self c r2)]
  have hs2 : startMark (d :: rr2) = false := by simp [startMark, hdw, hdl]
  have hend : endMark (run ++ d :: rr2) = endMark (d :: rr2) :=
    endMark_append (by simp)
  rw [midForm_pos (l := run ++ d :: rr2) (by rw [ht]; simp),
    midForm_pos htd, hs1, hs2, hend, canon, canon, ht,
    intercalate_cons_of_ne run htd]
  simp

theorem midForm_other_cons {c : Char} (cs : List Char)
    (hwsc : isWs c = false) (hlatc : isLatin c = false) :
    midForm (c :: cs) = c :: midForm cs := by
  have hpc : runPred false c = true := by simp [runPred, hwsc, hlatc]
  have ht0 := tokens_cons_not_ws cs hwsc
  rw [hlatc] at ht0
  rw [List.takeWhile_cons_of_pos hpc, List.dropWhile_cons_of_pos hpc] at ht0
  have hs1 : startMark (c :: cs) = false := by simp [startMark, hwsc, hlatc]
  cases cs with
  | nil =>
    rw [List.takeWhile_nil, List.dropWhile_nil, tokens_nil] at ht0
    have he : endMark [c] = false := by simp [endMark, hwsc, hlatc]
    rw [midForm_pos (by rw [ht0]; simp), hs1, he, canon, ht0,
      intercalate_single, midForm_nil]
    simp
  | cons d cs2 =>
    have hend : endMark (c :: d :: cs2) = endMark (d :: cs2) :=
      endMark_cons (by simp)
    by_cases hdother : isWs d = false ∧ isLatin d = false
    · have htcs := tokens_cons_not_ws cs2 hdother.1
      rw [hdother.2] at htcs
      have hs2 : startMark (d :: cs2) = false := by
        simp [startMark, hdother.1, hdother.2]
      rw [midForm_pos (l := c :: d :: cs2) (by rw [ht0]; simp),
        midForm_pos (by rw [htcs]; simp), hs1, hs2, hend, canon, canon,
        ht0, htcs, intercalate_head_extend]
      simp
    · have hpd : runPred false d = false := by
        rcases Decidable.not_and_iff_or_not.mp hdother with h1 | h1 <;>
          simp only [Bool.not_eq_false] at h1 <;>
          simp [runPred, h1, isWs_not_isLatin]
      rw [List.takeWhile_cons_of_neg (by simp [hpd]),
        List.dropWhile_cons_of_neg (by simp [hpd])] at ht0
      by_cases htok : tokens (d :: cs2) = []
      · have hallws := (tokens_eq_nil_iff _).mp htok
        have hendw : endMark (c :: d :: cs2) = true := by
          rw [hend]
          exact endMark_of_all_ws (by simp) hallws
        rw [midForm_pos (by rw [ht0, htok]; simp), hs1, hendw, canon, ht0,
          htok, intercalate_single, midForm_allws (by simp) htok]
        simp
      · have hs2 : startMark (d :: cs2) = true := by
          rcases Decidable.not_and_iff_or_not.mp hdother with h1 | h1 <;>
            simp only [Bool.not_eq_false] at h1 <;>
            simp [startMark, h1]
        rw [midForm_pos (l := c :: d :: cs2) (by rw [ht0]; simp),
          midForm_pos htok, hs1, hs2, hend, canon, canon, ht0,
          intercalate_cons_of_ne _ htok]
        simp

theorem mid_eq : ∀ (n : Nat) (l : List Char), l.length ≤ n →
    collapseWs (spaceLatin l) = midForm l := by
  intro n
  induction n with
  | zero =>
    intro l hl
    have hnil : l = [] := List.eq_nil_of_length_eq_zero (Nat.le_zero.mp hl)
    subst hnil
    rw [spaceLatin_nil, collapseWs_nil, midForm_nil]
  | succ n ih =>
    intro l hl
    cases l with
    | nil => rw [spaceLatin_nil, collapseWs_nil, midForm_nil]
    | cons c cs =>
      simp only [List.length_cons] at hl
      by_cases hws : isWs c = true
      · have hlat : isLatin c = false := isWs_not_isLatin hws
        rw [spaceLatin_cons_not_latin cs hlat, collapseWs_cons_ws _ hws,
          List.dropWhile_cons_of_pos hws]
        cases cs with
        | nil =>
          rw [spaceLatin_nil, List.dropWhile_nil, collapseWs_nil]
          rw [midForm_allws (by simp)
            (by rw [tokens_cons_ws _ hws, tokens_nil])]
        | cons d cs2 =>
          have hmidcs := ih (d :: cs2) (by omega)
          by_cases hdw : isWs d = true
          · rw [spaceLatin_cons_not_latin cs2 (isWs_not_isLatin hdw),
              List.dropWhile_cons_of_pos hdw]
            have hkey : collapseWs (spaceLatin (d :: cs2)) =
                ' ' :: collapseWs ((spaceLatin cs2).dropWhile isWs) := by
              rw [spaceLatin_cons_not_latin cs2 (isWs_not_isLatin hdw),
                collapseWs_cons_ws _ hdw, List.dropWhile_cons_of_pos hdw]
            rw [← hkey, hmidcs]
            exact (midForm_tail hws (by simp [startMark, hdw]) (by simp)).symm
          · by_cases hdl : isLatin d = true
            · have hkey : collapseWs (spaceLatin (d :: cs2)) =
                  ' ' :: collapseWs ((spaceLatin (d :: cs2)).dropWhile isWs) := by
                rw [spaceLatin_cons_latin cs2 hdl, List.cons_append,
                  collapseWs_cons_ws _ (by decide)]
              rw [← hkey, hmidcs]
              exact (midForm_tail hws (by simp [startMark, hdl]) (by simp)).symm
            · have hdl2 : isLatin d = false := by simpa using hdl
              have hdw2 : isWs d = false := by simpa using hdw
              rw [spaceLatin_cons_not_latin cs2 hdl2,
                List.dropWhile_cons_of_neg (by simp [hdw2])]
              have hsl : collapseWs (spaceLatin (d :: cs2)) =
                  collapseWs (d :: spaceLatin cs2) := by
                rw [spaceLatin_cons_not_latin cs2 hdl2]
              rw [← hsl, hmidcs, midForm_ws_other cs2 hws hdw2 hdl2]
      · have hws2 : isWs c = false := by simpa using hws
        by_cases hlat : isLatin c = true
        · rw [spaceLatin_cons_latin cs hlat]
          obtain ⟨run, hrun⟩ : ∃ r, (c :: cs).takeWhile isLatin = r :=
            ⟨(c :: cs).takeWhile isLatin, rfl⟩
          obtain ⟨rr, hrr⟩ : ∃ r, (c :: cs).dropWhile isLatin = r :=
            ⟨(c :: cs).dropWhile isLatin, rfl⟩
          rw [hrun, hrr]
          have hrunne : run ≠ [] := by
            rw [← hrun, List.takeWhile_cons_of_pos hlat]
            simp
          have hrunlat : ∀ x ∈ run, isLatin x = true := by
            intro x hx
            rw [← hrun] at hx
            exact List.mem_takeWhile_imp hx
          have hrunws : ∀ x ∈ run, isWs x = false := fun x hx =>
            isLatin_not_isWs (hrunlat x hx)
          have hsplit : run ++ rr = c :: cs := by
            rw [← hrun, ← hrr]
            exact List.takeWhile_append_dropWhile isLatin (c :: cs)
          rw [List.cons_append, collapseWs_cons_ws _ (by decide),
            List.dropWhile_cons_of_pos (by decide)]
          have hdropr : (run ++ ' ' :: spaceLatin rr).dropWhile isWs =
              run ++ ' ' :: spaceLatin rr := by
            obtain ⟨rc, rrest, hrc⟩ := List.exists_cons_of_ne_nil hrunne
            have hrcws : isWs rc = false :=
              hrunws rc (by rw [hrc]; exact List.mem_cons_self rc rrest)
            rw [hrc, List.cons_append,
              List.dropWhile_cons_of_neg (by simp [hrcws])]
          rw [hdropr, collapseWs_append_not_ws _ hrunws,
            collapseWs_cons_ws _ (by decide),
            List.dropWhile_cons_of_pos (by decide)]
          cases rr with
          | nil =>
            have hrun_eq : run = c :: cs := by
              rw [List.append_nil] at hsplit
              exact hsplit
            have hlall : ∀ x ∈ c :: cs, isLatin x = true := by
              rw [← hrun_eq]
              exact hrunlat
            rw [spaceLatin_nil, List.dropWhile_nil, collapseWs_nil,
              midForm_latin_all (by simp) hlall, ← hrun_eq]
            simp
          | cons d rr2 =>
            have hdl : isLatin d = false := dropWhile_head_not (c :: cs) hrr
            have hcc : c :: cs = run ++ d :: rr2 := hsplit.symm
            have hlenrr : (d :: rr2).length ≤ n := by
              have h1 : (d :: rr2).length ≤ cs.length := by
                rw [← hrr, List.dropWhile_cons_of_pos hlat]
                exact (List.dropWhile_sublist (l := cs) isLatin).length_le
              omega
            have hmidrr := ih (d :: rr2) hlenrr
            by_cases hdw : isWs d = true
            · have hkey : collapseWs (spaceLatin (d :: rr2)) =
                  ' ' :: collapseWs ((spaceLatin (d :: rr2)).dropWhile isWs) := by
                rw [spaceLatin_cons_not_latin rr2 hdl,
                  collapseWs_cons_ws _ hdw]
              rw [hcc, midForm_latin_append_ws hrunne hrunlat hdw, ← hmidrr,
                hkey]
              simp
            · have hdw2 : isWs d = false := by simpa using hdw
              have hkey : (spaceLatin (d :: rr2)).dropWhile isWs =
                  spaceLatin (d :: rr2) := by
                rw [spaceLatin_cons_not_latin rr2 hdl,
                  List.dropWhile_cons_of_neg (by simp [hdw2])]
              rw [hkey, hmidrr, hcc,
                midForm_latin_append_other hrunne hrunlat hdw2 hdl]
              simp
        · have hlat2 : isLatin c = false := by simpa using hlat
          rw [spaceLatin_cons_not_latin cs hlat2,
            collapseWs_cons_not_ws _ hws2,
            ih cs (by omega), midForm_other_cons cs hws2 hlat2]

theorem trimChars_pad (m : List Char) (b1 b2 : Bool) (hne : m ≠ [])
    (hh : ∀ c, m.head? = some c → isWs c = false)
    (hl : ∀ c, m.getLast? = some c → isWs c = false) :
    trimChars ((if b1 = true then [' '] else []) ++ m ++
      (if b2 = true then [' '] else [])) = m := by
  obtain ⟨x, m1, hm⟩ := List.exists_cons_of_ne_nil hne
  have hx : isWs x = false := hh x (by rw [hm]; rfl)
  have hstep1 : ∀ post : List Char,
      ((if b1 = true then [' '] else []) ++ m ++ post).dropWhile isWs =
        m ++ post := by
    intro post
    cases b1 with
    | false =>
      rw [if_neg (by simp), List.nil_append, hm, List.cons_append,
        List.dropWhile_cons_of_neg (by simp [hx])]
    | true =>
      rw [if_pos rfl, hm, List.singleton_append, List.cons_append,
        List.dropWhile_cons_of_pos (by decide), List.cons_append,
        List.dropWhile_cons_of_neg (by simp [hx])]
  rw [trimChars, hstep1 (if b2 = true then [' '] else [])]
  have hrne : m.reverse ≠ [] := by simp [hne]
  obtain ⟨y, r2, hyr⟩ := List.exists_cons_of_ne_nil hrne
  have hy : isWs y = false := by
    apply hl
    rw [← List.head?_reverse, hyr]
    rfl
  cases b2 with
  | false =>
    rw [if_neg (by simp), List.append_nil, hyr,
      List.dropWhile_cons_of_neg (by simp [hy]), ← hyr,
      List.reverse_reverse]
  | true =>
    rw [if_pos rfl, List.reverse_append]
    have h5 : ([' '] : List Char).reverse = [' '] := rfl
    rw [h5, List.singleton_append, List.dropWhile_cons_of_pos (by decide),
      hyr, List.dropWhile_cons_of_neg (by simp [hy]), ← hyr,
      List.reverse_reverse]

theorem preprocessChars_eq_canon (l : List Char) :
    preprocessChars l = canon l := by
  rw [preprocessChars, mid_eq l.length l (le_refl _)]
  by_cases ht : tokens l = []
  · rw [midForm, if_pos ht, canon, ht]
    by_cases hlnil : l = []
    · rw [if_pos hlnil]
      rfl
    · rw [if_neg hlnil]
      rfl
  · have hch := tokens_chunks l.length l (le_refl _)
    have hne : ∀ t ∈ tokens l, t ≠ [] := fun t h => (hch t h).1
    have hwsf : ∀ t ∈ tokens l, ∀ c ∈ t, isWs c = false := by
      intro t h c hc
      obtain ⟨b, hb⟩ := (hch t h).2
      exact (hb c hc).1
    obtain ⟨hmne, hhd, hlst⟩ := intercalate_facts (tokens l) hne hwsf ht
    rw [midForm, if_neg ht]
    exact trimChars_pad (canon l) (startMark l) (endMark l) hmne hhd hlst

theorem canon_canon (l : List Char) : canon (canon l) = canon l := by
  have hch := tokens_chunks l.length l (le_refl _)
  have hti : tokens (canon l) = tokens l := tokens_intercalate (tokens l) hch
  calc canon (canon l) = List.intercalate [' '] (tokens (canon l)) := rfl
    _ = List.intercalate [' '] (tokens l) := by rw [hti]
    _ = canon l := rfl

/-- Claim C10: the Arabic text preprocessing function `preprocessArabicText`
(spacing Latin-letter runs, collapsing whitespace runs to single spaces,
trimming) is idempotent: for every input string, applying it twice yields the
same result as applying it once. -/
theorem claim_C10 (text : String) :
    preprocessArabicText (preprocessArabicText text) =
      preprocessArabicText text := by
  by_cases h0 : text = ""
  · subst h0
    rfl
  · have hinner : preprocessArabicText text =
        String.mk (preprocessChars text.data) := by
      rw [preprocessArabicText, if_neg h0]
    rw [hinner]
    by_cases h1 : String.mk (preprocessChars text.data) = ""
    · rw [h1]
      rfl
    · rw [preprocessArabicText, if_neg h1]
      show String.mk (preprocessChars (preprocessChars text.data)) =
        String.mk (preprocessChars text.data)
      rw [preprocessChars_eq_canon, preprocessChars_eq_canon, canon_canon]

end ITPF
